import Mathlib

/-!
# Verification of the ZBush Z-order spatial index

This file gives a shallow embedding of `src/index.js` (the `ZBush` class and
its helper functions `bitblast8/16/32`, `zencode64`, `bsearchlt`, `bsearchlte`,
`bigmin`, `fitsUintN`) and proves the specification claims about it.

JavaScript `BigInt` values used by the source are embedded as `Nat` (all the
source's `BigInt` arithmetic is on non-negative values; `BigInt.asUintN 32`
becomes `% 2^32`).  JavaScript `number` coordinates handed to `add`/`range`
are embedded as `ℚ` so that non-integral inputs are representable.  The
source's `while` loops become fuel-indexed structural recursions; in every
case the fuel provided is an upper bound on the number of iterations the
JavaScript loop performs, which is established by the theorems below.

The mathematical bridge (`spreadBits`, `evenBits`, `oddBits`, `interleave`)
is used only in specifications and proofs; the executable definitions follow
the source.
-/

namespace ZB

/-! ## Definitions: the shallow embedding of `src/index.js` and the
specification vocabulary (all definitions of the development, in dependency
order; the theorems about them follow) -/

/-- Spread the bits of `x`: bit `k` of `x` goes to bit `2*k` of the result. -/
def spreadBits (x : Nat) : Nat :=
  if h : x = 0 then 0 else x % 2 + 4 * spreadBits (x / 2)
decreasing_by exact Nat.div_lt_self (Nat.pos_of_ne_zero h) Nat.one_lt_two

/-- Extract the even-position bits of `z`: bit `2*k` of `z` is bit `k` of the result. -/
def evenBits (z : Nat) : Nat :=
  if h : z = 0 then 0 else z % 2 + 2 * evenBits (z / 4)
decreasing_by exact Nat.div_lt_self (Nat.pos_of_ne_zero h) (by norm_num)

/-- Extract the odd-position bits of `z`. -/
def oddBits (z : Nat) : Nat := evenBits (z / 2)

/-- Interleave: `x` on even bit positions, `y` on odd bit positions. -/
def interleave (x y : Nat) : Nat := spreadBits x + 2 * spreadBits y

/-- The 16-entry nibble-spread table (`bitblast4` in `src/index.js`). -/
def bitblast4 : List Nat :=
  [0x00, 0x01, 0x04, 0x05, 0x10, 0x11, 0x14, 0x15,
   0x40, 0x41, 0x44, 0x45, 0x50, 0x51, 0x54, 0x55]

/-- `bitblast8` from `src/index.js`. -/
def bitblast8 (x : Nat) : Nat :=
  (bitblast4.getD ((x >>> 0) &&& 0xf) 0 <<< 0) |||
  (bitblast4.getD ((x >>> 4) &&& 0xf) 0 <<< 8)

/-- `bitblast16` from `src/index.js`. -/
def bitblast16 (x : Nat) : Nat :=
  (bitblast8 ((x >>> 0) &&& 0xff) <<< 0) |||
  (bitblast8 ((x >>> 8) &&& 0xff) <<< 16)

/-- `bitblast32` from `src/index.js`. -/
def bitblast32 (x : Nat) : Nat :=
  (bitblast16 ((x >>> 0) &&& 0xffff) <<< 0) |||
  (bitblast16 ((x >>> 16) &&& 0xffff) <<< 32)

/-- `zencode64` from `src/index.js`; `BigInt.asUintN 32` is `% 2^32`. -/
def zencode64 (x y : Nat) : Nat :=
  (bitblast32 (y % 2 ^ 32) <<< 1) ||| bitblast32 (x % 2 ^ 32)

/-- Loop body of `bsearchlt` from `src/index.js` (comparison `<`). -/
def bsearchltGo (a : List Nat) (v : Nat) : Nat → Nat → Nat → Nat
  | 0, f, _n => f
  | fuel + 1, f, n =>
    if n = 0 then f
    else
      let step := n / 2
      let i := f + step
      if a.getD i 0 < v then bsearchltGo a v fuel (i + 1) (n - step - 1)
      else bsearchltGo a v fuel f step

/-- `bsearchlt` from `src/index.js`: first position in `[f, l)` whose element is
not `< v` (i.e. lower bound), on a range partitioned by `< v`. -/
def bsearchlt (a : List Nat) (f l v : Nat) : Nat := bsearchltGo a v (l - f) f (l - f)

/-- Loop body of `bsearchlte` from `src/index.js` (comparison `<=`). -/
def bsearchlteGo (a : List Nat) (v : Nat) : Nat → Nat → Nat → Nat
  | 0, f, _n => f
  | fuel + 1, f, n =>
    if n = 0 then f
    else
      let step := n / 2
      let i := f + step
      if a.getD i 0 <= v then bsearchlteGo a v fuel (i + 1) (n - step - 1)
      else bsearchlteGo a v fuel f step

/-- `bsearchlte` from `src/index.js`: first position in `[f, l)` whose element is
not `<= v` (i.e. upper bound), on a range partitioned by `<= v`. -/
def bsearchlte (a : List Nat) (f l v : Nat) : Nat := bsearchlteGo a v (l - f) f (l - f)

/-- Sortedness of the embedded key array, stated over `getD` indexing. -/
def SortedNat (a : List Nat) : Prop :=
  ∀ i j, i <= j → j < a.length → a.getD i 0 <= a.getD j 0

/-- Loop body of `bigmin` from `src/index.js`. -/
def bigminGo (zval : Nat) : Nat → Nat → Nat → Nat → Nat → Nat → Nat → Nat
  | 0, bm, _zmin, _zmax, _loadmask, _loadones, _mask => bm
  | fuel + 1, bm, zmin, zmax, loadmask, loadones, mask =>
    if mask = 0 then bm
    else if zval &&& mask = 0 ∧ zmin &&& mask ≠ 0 ∧ zmax &&& mask ≠ 0 then
      zmin
    else if zval &&& mask ≠ 0 ∧ zmin &&& mask = 0 ∧ zmax &&& mask = 0 then
      bm
    else if zval &&& mask = 0 ∧ zmin &&& mask = 0 ∧ zmax &&& mask ≠ 0 then
      bigminGo zval fuel ((zmin &&& loadmask) ||| mask) zmin
        ((zmax &&& loadmask) ||| loadones)
        (loadmask >>> 1 ||| 0x8000000000000000) (loadones >>> 1) (mask >>> 1)
    else if zval &&& mask ≠ 0 ∧ zmin &&& mask = 0 ∧ zmax &&& mask ≠ 0 then
      bigminGo zval fuel bm ((zmin &&& loadmask) ||| mask) zmax
        (loadmask >>> 1 ||| 0x8000000000000000) (loadones >>> 1) (mask >>> 1)
    else
      bigminGo zval fuel bm zmin zmax
        (loadmask >>> 1 ||| 0x8000000000000000) (loadones >>> 1) (mask >>> 1)

/-- `bigmin` from `src/index.js`: next Z-value after `zval` inside the box. -/
def bigmin (zval zmin zmax : Nat) : Nat :=
  bigminGo zval 64 zmin zmin zmax 0x5555555555555555 0x2aaaaaaaaaaaaaaa 0x8000000000000000

/-- `z` lies in the axis-aligned box whose Z-order corners are `lo` and `hi`. -/
def inBox (lo hi z : Nat) : Prop :=
  evenBits lo <= evenBits z ∧ evenBits z <= evenBits hi ∧
  oddBits lo <= oddBits z ∧ oddBits z <= oddBits hi

/-- Value of the source's `loadmask` variable when `f` fuel units remain. -/
def lmF (f : Nat) : Nat :=
  if (f - 1) % 2 = 0 then interleave (2 ^ 32 - 2 ^ ((f - 1) / 2 + 1)) (2 ^ 32 - 1)
  else interleave (2 ^ 32 - 1) (2 ^ 32 - 2 ^ ((f - 1) / 2 + 1))

/-- Value of the source's `loadones` variable when `f` fuel units remain. -/
def loF (f : Nat) : Nat :=
  if (f - 1) % 2 = 0 then interleave (2 ^ ((f - 1) / 2) - 1) 0
  else interleave 0 (2 ^ ((f - 1) / 2) - 1)

/-- The coordinate a bit position `j` of a key belongs to. -/
def activeCoord (j z : Nat) : Nat := if j % 2 = 0 then evenBits z else oddBits z

/-- The other coordinate. -/
def passiveCoord (j z : Nat) : Nat := if j % 2 = 0 then oddBits z else evenBits z

/-- The test `x >= xmin && x <= xmax && y >= ymin && y <= ymax` of
`range` in `src/index.js`, as a Boolean on the position `i` of the sorted
arrays. -/
def rectFilter (xs ys : List Nat) (xmin ymin xmax ymax i : Nat) : Bool :=
  decide (xmin <= xs.getD i 0) && decide (xs.getD i 0 <= xmax) &&
  decide (ymin <= ys.getD i 0) && decide (ys.getD i 0 <= ymax)

/-- The `while (it != last)` loop of `range` from `src/index.js`.  One fuel
unit per iteration, `none` on fuel exhaustion; the caller passes
`last - it` units, which suffice because every iteration strictly advances
the cursor (this is proved in `scanGo_correct`). -/
def scanGo (ids xs ys zs : List Nat) (xmin ymin xmax ymax zmin zmax : Nat) :
    Nat → Nat → Nat → List Nat → Option (List Nat)
  | 0, it, last, acc => if it = last then some acc else none
  | fuel + 1, it, last, acc =>
    if it = last then some acc
    else if xmin <= xs.getD it 0 ∧ xs.getD it 0 <= xmax ∧
        ymin <= ys.getD it 0 ∧ ys.getD it 0 <= ymax then
      scanGo ids xs ys zs xmin ymin xmax ymax zmin zmax fuel (it + 1) last
        (acc ++ [ids.getD it 0])
    else
      scanGo ids xs ys zs xmin ymin xmax ymax zmin zmax fuel
        (bsearchlt zs it last (bigmin (zs.getD it 0) zmin zmax)) last acc

/-- The whole of `range` from `src/index.js` after validation, over the
sorted parallel arrays of a finished index. -/
def rangeScan (ids xs ys zs : List Nat) (xmin ymin xmax ymax : Nat) : Option (List Nat) :=
  scanGo ids xs ys zs xmin ymin xmax ymax (zencode64 xmin ymin) (zencode64 xmax ymax)
    (bsearchlte zs (bsearchlt zs 0 zs.length (zencode64 xmin ymin)) zs.length
        (zencode64 xmax ymax)
      - bsearchlt zs 0 zs.length (zencode64 xmin ymin))
    (bsearchlt zs 0 zs.length (zencode64 xmin ymin))
    (bsearchlte zs (bsearchlt zs 0 zs.length (zencode64 xmin ymin)) zs.length
        (zencode64 xmax ymax))
    []

/-- `fitsUintN` from `src/index.js`.  In JavaScript `BigInt(v)` throws unless
the number `v` is integral (modelled by `v.den = 1`), and
`BigInt.asUintN(bits, n) === n` holds exactly when `0 <= n < 2 ^ bits`. -/
def fitsUintN (bits : Nat) (v : ℚ) : Bool :=
  v.den == 1 && decide (0 <= v.num) && decide (v.num < 2 ^ bits)

/-- The numeric value of an integral non-negative JavaScript number, as the
natural number that `BigInt(v)` denotes. -/
def qToNat (v : ℚ) : Nat := v.num.toNat

/-- The private fields of `class ZBush` from `src/index.js`.  Coordinates are
JavaScript numbers, embedded as rationals; `ids` and `zs` only exist after a
`finish`, so the constructor leaves them empty. -/
structure ZBush where
  ids : List Nat
  xs : List ℚ
  ys : List ℚ
  zs : List Nat
  finished : Bool
  deriving DecidableEq

/-- `constructor()` from `src/index.js`. -/
def ZBush.init : ZBush := ⟨[], [], [], [], false⟩

/-- `add(x, y)` from `src/index.js`: push the coordinates, clear the
finished flag, return the new length minus one. -/
def ZBush.add (b : ZBush) (x y : ℚ) : ZBush × Nat :=
  ({ b with xs := b.xs ++ [x], ys := b.ys ++ [y], finished := false },
   (b.xs ++ [x]).length - 1)

/-- The validation-and-mapping loop of `finish()` from `src/index.js`, run
over a list of indices: the first coordinate failing `fitsUintN(32, ·)`
aborts with the thrown message, otherwise each index is paired with its
z-value. -/
def mapZ (xs ys : List ℚ) : List Nat → Except String (List (Nat × Nat))
  | [] => Except.ok []
  | i :: rest =>
    if fitsUintN 32 (xs.getD i 0) = false then
      Except.error "can not index point that is not an integral type in [0, 2^32-1]"
    else if fitsUintN 32 (ys.getD i 0) = false then
      Except.error "can not index point that is not an integral type in [0, 2^32-1]"
    else
      match mapZ xs ys rest with
      | Except.error e => Except.error e
      | Except.ok tail =>
          Except.ok ((i, zencode64 (qToNat (xs.getD i 0)) (qToNat (ys.getD i 0))) :: tail)

/-- Insertion step of a stable sort on the `z` component, placing the new
(earlier) element before any element of equal `z`, as the three-way
comparator of `finish()` together with the ECMAScript stable-sort guarantee
demands. -/
def insertZ (v : Nat × Nat) : List (Nat × Nat) → List (Nat × Nat)
  | [] => [v]
  | w :: rest => if w.2 < v.2 then w :: insertZ v rest else v :: w :: rest

/-- Stable sort by `z` of the `mapped` array in `finish()` from
`src/index.js`. -/
def sortZ : List (Nat × Nat) → List (Nat × Nat)
  | [] => []
  | v :: rest => insertZ v (sortZ rest)

/-- `finish()` from `src/index.js` with the thrown error reified: a no-op on
a finished index, otherwise validate and map all points, sort by z-value and
commit the four parallel arrays.  On a validation error nothing has been
mutated yet, so the state comes back unchanged. -/
def ZBush.finishE (b : ZBush) : ZBush × Option String :=
  if b.finished then (b, none)
  else
    match mapZ b.xs b.ys (List.range b.xs.length) with
    | Except.error e => (b, some e)
    | Except.ok mapped =>
        ({ ids := (sortZ mapped).map (fun v => v.1),
           xs := (sortZ mapped).map (fun v => b.xs.getD v.1 0),
           ys := (sortZ mapped).map (fun v => b.ys.getD v.1 0),
           zs := (sortZ mapped).map (fun v => v.2),
           finished := true }, none)

/-- The `while (it != last)` loop of `range` from `src/index.js`, with the
coordinate comparisons on the stored JavaScript numbers (rationals), exactly
as the source compares `this.#xs[it]` with the query bounds. -/
def scanGoQ (ids : List Nat) (xs ys : List ℚ) (zs : List Nat)
    (xmin ymin xmax ymax : ℚ) (zmin zmax : Nat) :
    Nat → Nat → Nat → List Nat → Option (List Nat)
  | 0, it, last, acc => if it = last then some acc else none
  | fuel + 1, it, last, acc =>
    if it = last then some acc
    else if xmin <= xs.getD it 0 ∧ xs.getD it 0 <= xmax ∧
        ymin <= ys.getD it 0 ∧ ys.getD it 0 <= ymax then
      scanGoQ ids xs ys zs xmin ymin xmax ymax zmin zmax fuel (it + 1) last
        (acc ++ [ids.getD it 0])
    else
      scanGoQ ids xs ys zs xmin ymin xmax ymax zmin zmax fuel
        (bsearchlt zs it last (bigmin (zs.getD it 0) zmin zmax)) last acc

/-- The body of the `while` loop call in `range` from `src/index.js`, over
the fields of an (already finished) index: z-range delimitation by the two
binary searches, then the scan with one fuel unit per loop iteration. -/
def ZBush.runScan (b : ZBush) (xmin ymin xmax ymax : ℚ) : Option (List Nat) :=
  scanGoQ b.ids b.xs b.ys b.zs xmin ymin xmax ymax
    (zencode64 (qToNat xmin) (qToNat ymin)) (zencode64 (qToNat xmax) (qToNat ymax))
    (bsearchlte b.zs
        (bsearchlt b.zs 0 b.zs.length (zencode64 (qToNat xmin) (qToNat ymin)))
        b.zs.length (zencode64 (qToNat xmax) (qToNat ymax))
      - bsearchlt b.zs 0 b.zs.length (zencode64 (qToNat xmin) (qToNat ymin)))
    (bsearchlt b.zs 0 b.zs.length (zencode64 (qToNat xmin) (qToNat ymin)))
    (bsearchlte b.zs
        (bsearchlt b.zs 0 b.zs.length (zencode64 (qToNat xmin) (qToNat ymin)))
        b.zs.length (zencode64 (qToNat xmax) (qToNat ymax)))
    []

/-- `range(xmin, ymin, xmax, ymax)` from `src/index.js`: first the implicit
`finish()` (whose failure propagates and leaves the state as it was), then
bound validation (whose failure leaves the state as the implicit finish left
it), then the z-range scan. -/
def ZBush.range (b : ZBush) (xmin ymin xmax ymax : ℚ) :
    ZBush × Except String (List Nat) :=
  match b.finishE with
  | (b1, some e) => (b1, Except.error e)
  | (b1, none) =>
    if fitsUintN 32 xmin = false ∨ fitsUintN 32 ymin = false ∨
        fitsUintN 32 xmax = false ∨ fitsUintN 32 ymax = false then
      (b1, Except.error "can not range query with values that are not of integral type in [0, 2^32-1]")
    else
      (b1, Except.ok ((b1.runScan xmin ymin xmax ymax).getD []))

/-- Adding a list of points one after the other, as a test driver would. -/
def mkIndex (pts : List (ℚ × ℚ)) : ZBush :=
  pts.foldl (fun b p => (b.add p.1 p.2).1) ZBush.init

/-- The `mapped` array that a successful run of `finish()` builds, before
sorting. -/
def mappedOf (b : ZBush) : List (Nat × Nat) :=
  (List.range b.xs.length).map (fun i =>
    (i, zencode64 (qToNat (b.xs.getD i 0)) (qToNat (b.ys.getD i 0))))

/-- The in-rectangle test of the scan loop, over the stored JavaScript
numbers and an index into the parallel arrays. -/
def rectFilterQ (xs ys : List ℚ) (xmin ymin xmax ymax : ℚ) (i : Nat) : Bool :=
  decide (xmin <= xs.getD i 0) && decide (xs.getD i 0 <= xmax) &&
  decide (ymin <= ys.getD i 0) && decide (ys.getD i 0 <= ymax)

/-! ## Theorems -/

/-! ## Mathematical bridge: bit spreading and interleaving -/

@[simp] theorem spreadBits_zero : spreadBits 0 = 0 := by
  rw [spreadBits]; simp

theorem spreadBits_eq (x : Nat) : spreadBits x = x % 2 + 4 * spreadBits (x / 2) := by
  by_cases h : x = 0
  · subst h; simp [spreadBits]
  · rw [spreadBits]; simp [h]

@[simp] theorem evenBits_zero : evenBits 0 = 0 := by
  rw [evenBits]; simp

theorem evenBits_eq (z : Nat) : evenBits z = z % 2 + 2 * evenBits (z / 4) := by
  by_cases h : z = 0
  · subst h; simp [evenBits]
  · rw [evenBits]; simp [h]

@[simp] theorem oddBits_zero : oddBits 0 = 0 := by
  simp [oddBits]

theorem spreadBits_mod_two (x : Nat) : spreadBits x % 2 = x % 2 := by
  rw [spreadBits_eq]; omega

theorem spreadBits_div_two (x : Nat) : spreadBits x / 2 = 2 * spreadBits (x / 2) := by
  rw [spreadBits_eq]; omega

theorem spreadBits_strictMono : ∀ {y x : Nat}, x < y → spreadBits x < spreadBits y := by
  intro y
  induction y using Nat.strong_induction_on with
  | _ y ih =>
    intro x hxy
    rw [spreadBits_eq x, spreadBits_eq y]
    have hy : y ≠ 0 := by omega
    have hdiv : x / 2 ≤ y / 2 := Nat.div_le_div_right (Nat.le_of_lt hxy)
    rcases Nat.eq_or_lt_of_le hdiv with heq | hlt
    · have hm : x % 2 < y % 2 := by omega
      rw [heq]
      omega
    · have := ih (y / 2) (Nat.div_lt_self (Nat.pos_of_ne_zero hy) Nat.one_lt_two) hlt
      have hx2 : x % 2 < 2 := Nat.mod_lt _ (by norm_num)
      omega

theorem spreadBits_mono {x y : Nat} (h : x ≤ y) : spreadBits x ≤ spreadBits y := by
  rcases Nat.eq_or_lt_of_le h with rfl | h
  · exact Nat.le_refl _
  · exact Nat.le_of_lt (spreadBits_strictMono h)

theorem spreadBits_two_pow (k : Nat) : spreadBits (2 ^ k) = 4 ^ k := by
  induction k with
  | zero => rw [spreadBits_eq]; simp
  | succ k ih =>
    rw [spreadBits_eq]
    have h1 : 2 ^ (k + 1) % 2 = 0 := by
      simp [Nat.pow_succ, Nat.mul_mod_left]
    have h2 : 2 ^ (k + 1) / 2 = 2 ^ k := by
      rw [Nat.pow_succ]; exact Nat.mul_div_cancel _ (by norm_num)
    rw [h1, h2, ih, Nat.pow_succ]; ring

theorem spreadBits_lt_two_pow {x k : Nat} (h : x < 2 ^ k) : spreadBits x < 4 ^ k := by
  calc spreadBits x < spreadBits (2 ^ k) := spreadBits_strictMono h
  _ = 4 ^ k := spreadBits_two_pow k

/-- `3 * spreadBits (2^k - 1) = 4^k - 1`: the spread of an all-ones pattern. -/
theorem three_mul_spreadBits_pred_pow (k : Nat) :
    3 * spreadBits (2 ^ k - 1) = 4 ^ k - 1 := by
  induction k with
  | zero => simp
  | succ k ih =>
    have h0 : (0:Nat) < 2 ^ k := Nat.pos_pow_of_pos k (by norm_num)
    have h1 : 2 ^ (k + 1) - 1 = 2 * (2 ^ k - 1) + 1 := by
      rw [Nat.pow_succ]; omega
    have hm : (2 * (2 ^ k - 1) + 1) % 2 = 1 := by omega
    have hd : (2 * (2 ^ k - 1) + 1) / 2 = 2 ^ k - 1 := by omega
    rw [h1, spreadBits_eq, hm, hd]
    have h4 : (0:Nat) < 4 ^ k := Nat.pos_pow_of_pos k (by norm_num)
    rw [Nat.pow_succ]
    omega

theorem spreadBits_le_of_lt_two_pow {x k : Nat} (h : x < 2 ^ k) :
    3 * spreadBits x ≤ 4 ^ k - 1 := by
  have := spreadBits_mono (show x ≤ 2 ^ k - 1 by omega)
  have := three_mul_spreadBits_pred_pow k
  omega

theorem interleave_lt_two_pow {a b k : Nat} (ha : a < 2 ^ k) (hb : b < 2 ^ k) :
    interleave a b < 2 ^ (2 * k) := by
  have h1 := spreadBits_le_of_lt_two_pow ha
  have h2 := spreadBits_le_of_lt_two_pow hb
  have h4 : (0:Nat) < 4 ^ k := Nat.pos_pow_of_pos k (by norm_num)
  have hpow : (4:Nat) ^ k = 2 ^ (2 * k) := by
    rw [Nat.pow_mul]
  rw [interleave] at *
  omega

theorem evenBits_spreadBits (x : Nat) : evenBits (spreadBits x) = x := by
  induction x using Nat.strong_induction_on with
  | _ x ih =>
    by_cases h : x = 0
    · subst h; simp
    · rw [spreadBits_eq, evenBits_eq]
      have h1 : (x % 2 + 4 * spreadBits (x / 2)) % 2 = x % 2 := by omega
      have h2 : (x % 2 + 4 * spreadBits (x / 2)) / 4 = spreadBits (x / 2) := by omega
      rw [h1, h2, ih (x / 2) (Nat.div_lt_self (Nat.pos_of_ne_zero h) Nat.one_lt_two)]
      omega

theorem oddBits_spreadBits (x : Nat) : oddBits (spreadBits x) = 0 := by
  induction x using Nat.strong_induction_on with
  | _ x ih =>
    by_cases h : x = 0
    · subst h; simp
    · rw [oddBits, spreadBits_div_two, evenBits_eq]
      have h1 : 2 * spreadBits (x / 2) % 2 = 0 := by omega
      have h2 : 2 * spreadBits (x / 2) / 4 = spreadBits (x / 2) / 2 := by omega
      rw [h1, h2, spreadBits_div_two]
      have := ih (x / 2) (Nat.div_lt_self (Nat.pos_of_ne_zero h) Nat.one_lt_two)
      rw [oddBits, spreadBits_div_two] at this
      rw [this]

theorem interleave_div_two (x y : Nat) : interleave x y / 2 = interleave y (x / 2) := by
  rw [interleave, interleave, spreadBits_eq x]
  omega

theorem interleave_mod_two (x y : Nat) : interleave x y % 2 = x % 2 := by
  rw [interleave]
  have := spreadBits_mod_two x
  omega

theorem interleave_div_four (x y : Nat) : interleave x y / 4 = interleave (x / 2) (y / 2) := by
  rw [interleave, interleave, spreadBits_eq x, spreadBits_eq y]
  omega

theorem evenBits_interleave (x y : Nat) : evenBits (interleave x y) = x := by
  induction x using Nat.strong_induction_on generalizing y with
  | _ x ih =>
    rw [evenBits_eq, interleave_div_four, interleave_mod_two]
    by_cases h : x = 0
    · subst h
      simp only [Nat.zero_mod, Nat.zero_div, Nat.zero_add]
      -- evenBits (interleave 0 (y/2)) = 0 by induction on y
      clear ih
      induction y using Nat.strong_induction_on with
      | _ y ihy =>
        rw [evenBits_eq, interleave_div_four, interleave_mod_two]
        by_cases hy : y = 0
        · subst hy; simp [interleave]
        · simp only [Nat.zero_mod, Nat.zero_div, Nat.zero_add]
          have := ihy (y / 2) (Nat.div_lt_self (Nat.pos_of_ne_zero hy) Nat.one_lt_two)
          omega
    · rw [ih (x / 2) (Nat.div_lt_self (Nat.pos_of_ne_zero h) Nat.one_lt_two)]
      omega

theorem oddBits_interleave (x y : Nat) : oddBits (interleave x y) = y := by
  rw [oddBits, interleave_div_two, evenBits_interleave]

theorem interleave_evenBits_oddBits (z : Nat) :
    interleave (evenBits z) (oddBits z) = z := by
  induction z using Nat.strong_induction_on with
  | _ z ih =>
    by_cases h : z = 0
    · subst h; simp [interleave]
    · have hz4 : z / 4 < z := Nat.div_lt_self (Nat.pos_of_ne_zero h) (by norm_num)
      have hrec := ih (z / 4) hz4
      have hE : evenBits z = z % 2 + 2 * evenBits (z / 4) := evenBits_eq z
      have hO : oddBits z = z / 2 % 2 + 2 * oddBits (z / 4) := by
        rw [oddBits, evenBits_eq]
        have : z / 2 / 4 = z / 4 / 2 := by omega
        rw [this]
        rfl
      rw [hE, hO, interleave]
      rw [spreadBits_eq (z % 2 + 2 * evenBits (z / 4)),
          spreadBits_eq (z / 2 % 2 + 2 * oddBits (z / 4))]
      have e1 : (z % 2 + 2 * evenBits (z / 4)) % 2 = z % 2 := by omega
      have e2 : (z % 2 + 2 * evenBits (z / 4)) / 2 = evenBits (z / 4) := by omega
      have e3 : (z / 2 % 2 + 2 * oddBits (z / 4)) % 2 = z / 2 % 2 := by omega
      have e4 : (z / 2 % 2 + 2 * oddBits (z / 4)) / 2 = oddBits (z / 4) := by omega
      rw [e1, e2, e3, e4]
      rw [interleave] at hrec
      omega

/-- A number is determined by its even- and odd-position bits. -/
theorem eq_of_evenBits_oddBits {a b : Nat}
    (he : evenBits a = evenBits b) (ho : oddBits a = oddBits b) : a = b := by
  have ha := interleave_evenBits_oddBits a
  have hb := interleave_evenBits_oddBits b
  rw [← ha, ← hb, he, ho]

theorem interleave_le_interleave {x x' y y' : Nat} (hx : x ≤ x') (hy : y ≤ y') :
    interleave x y ≤ interleave x' y' := by
  have h1 := spreadBits_mono hx
  have h2 := spreadBits_mono hy
  rw [interleave, interleave]; omega

theorem evenBits_lt_two_pow {z k : Nat} (h : z < 2 ^ (2 * k)) : evenBits z < 2 ^ k := by
  by_contra hc
  push_neg at hc
  have := spreadBits_mono hc
  rw [spreadBits_two_pow] at this
  have hz := interleave_evenBits_oddBits z
  rw [interleave] at hz
  have hpow : (4:Nat) ^ k = 2 ^ (2 * k) := by
    rw [Nat.pow_mul]
  omega

theorem oddBits_lt_two_pow {z k : Nat} (h : z < 2 ^ (2 * k)) : oddBits z < 2 ^ k := by
  by_contra hc
  push_neg at hc
  have := spreadBits_mono hc
  rw [spreadBits_two_pow] at this
  have hz := interleave_evenBits_oddBits z
  rw [interleave] at hz
  have hpow : (4:Nat) ^ k = 2 ^ (2 * k) := by
    rw [Nat.pow_mul]
  omega

/-! ### testBit characterizations of the bridge functions -/

theorem testBit_interleave_even : ∀ (k a b : Nat), (interleave a b).testBit (2 * k) = a.testBit k := by
  intro k
  induction k with
  | zero =>
    intro a b
    rw [Nat.mul_zero, Nat.testBit_zero, Nat.testBit_zero, interleave_mod_two]
  | succ k ih =>
    intro a b
    have h1 : 2 * (k + 1) = (2 * k + 1) + 1 := by omega
    rw [h1, Nat.testBit_succ, interleave_div_two]
    have h2 : (2 * k + 1) = (2 * k) + 1 := rfl
    rw [h2, Nat.testBit_succ, interleave_div_two, ih]
    rw [Nat.testBit_succ]

theorem testBit_interleave_odd (k a b : Nat) :
    (interleave a b).testBit (2 * k + 1) = b.testBit k := by
  rw [Nat.testBit_succ, interleave_div_two, testBit_interleave_even]

theorem testBit_evenBits (z k : Nat) : (evenBits z).testBit k = z.testBit (2 * k) := by
  conv_rhs => rw [← interleave_evenBits_oddBits z]
  rw [testBit_interleave_even]

theorem testBit_oddBits (z k : Nat) : (oddBits z).testBit k = z.testBit (2 * k + 1) := by
  conv_rhs => rw [← interleave_evenBits_oddBits z]
  rw [testBit_interleave_odd]

theorem evenBits_land (a b : Nat) : evenBits (a &&& b) = evenBits a &&& evenBits b := by
  apply Nat.eq_of_testBit_eq
  intro i
  rw [Nat.testBit_land, testBit_evenBits, testBit_evenBits, testBit_evenBits, Nat.testBit_land]

theorem evenBits_lor (a b : Nat) : evenBits (a ||| b) = evenBits a ||| evenBits b := by
  apply Nat.eq_of_testBit_eq
  intro i
  rw [Nat.testBit_lor, testBit_evenBits, testBit_evenBits, testBit_evenBits, Nat.testBit_lor]

theorem oddBits_land (a b : Nat) : oddBits (a &&& b) = oddBits a &&& oddBits b := by
  apply Nat.eq_of_testBit_eq
  intro i
  rw [Nat.testBit_land, testBit_oddBits, testBit_oddBits, testBit_oddBits, Nat.testBit_land]

theorem oddBits_lor (a b : Nat) : oddBits (a ||| b) = oddBits a ||| oddBits b := by
  apply Nat.eq_of_testBit_eq
  intro i
  rw [Nat.testBit_lor, testBit_oddBits, testBit_oddBits, testBit_oddBits, Nat.testBit_lor]

theorem and_two_pow_eq_zero_iff (z j : Nat) : z &&& 2 ^ j = 0 ↔ z.testBit j = false := by
  rw [Nat.and_two_pow]
  cases h : z.testBit j <;> simp [h]

/-! ### Order and prefix lemmas on bit positions -/

theorem testBit_div_pow (x m j : Nat) : (x / 2 ^ m).testBit j = x.testBit (m + j) := by
  rw [← Nat.shiftRight_eq_div_pow, Nat.testBit_shiftRight]

theorem lt_of_agreeAbove {x y m : Nat} (hag : x / 2 ^ (m + 1) = y / 2 ^ (m + 1))
    (hx : x.testBit m = false) (hy : y.testBit m = true) : x < y := by
  rw [Nat.testBit_to_div_mod] at hx hy
  have hx' : x / 2 ^ m % 2 = 0 := by
    have := Nat.mod_lt (x / 2 ^ m) (show 0 < 2 by norm_num)
    simpa using hx
  have hy' : y / 2 ^ m % 2 = 1 := by simpa using hy
  have e1 : x / 2 ^ m / 2 = x / 2 ^ (m + 1) := by
    rw [Nat.div_div_eq_div_mul, Nat.pow_succ]
  have e2 : y / 2 ^ m / 2 = y / 2 ^ (m + 1) := by
    rw [Nat.div_div_eq_div_mul, Nat.pow_succ]
  have hlt : x / 2 ^ m < y / 2 ^ m := by omega
  by_contra hc
  push_neg at hc
  exact absurd (Nat.div_le_div_right (c := 2 ^ m) hc) (by omega)

theorem agree_step {x y m : Nat} (hag : x / 2 ^ (m + 1) = y / 2 ^ (m + 1))
    (hb : x.testBit m = y.testBit m) : x / 2 ^ m = y / 2 ^ m := by
  rw [Nat.testBit_to_div_mod, Nat.testBit_to_div_mod] at hb
  have e1 : x / 2 ^ m / 2 = x / 2 ^ (m + 1) := by
    rw [Nat.div_div_eq_div_mul, Nat.pow_succ]
  have e2 : y / 2 ^ m / 2 = y / 2 ^ (m + 1) := by
    rw [Nat.div_div_eq_div_mul, Nat.pow_succ]
  have hx2 := Nat.mod_lt (x / 2 ^ m) (show 0 < 2 by norm_num)
  have hy2 := Nat.mod_lt (y / 2 ^ m) (show 0 < 2 by norm_num)
  rcases Decidable.em (x / 2 ^ m % 2 = 1) with h | h <;> simp [h] at hb <;> omega

theorem agreeAbove_of_between {a b x m : Nat} (h1 : a <= x) (h2 : x <= b)
    (hab : a / 2 ^ m = b / 2 ^ m) : x / 2 ^ m = a / 2 ^ m := by
  have ha := Nat.div_le_div_right (c := 2 ^ m) h1
  have hb := Nat.div_le_div_right (c := 2 ^ m) h2
  omega

/-! ### Mask arithmetic at the coordinate level -/

theorem and_high_mask {a m n : Nat} (hmn : m <= n) (ha : a < 2 ^ n) :
    a &&& (2 ^ n - 2 ^ m) = a / 2 ^ m * 2 ^ m := by
  have hmask : 2 ^ n - 2 ^ m = 2 ^ m * (2 ^ (n - m) - 1) := by
    have : 2 ^ m * 2 ^ (n - m) = 2 ^ n := by
      rw [← Nat.pow_add]
      congr 1
      omega
    have hp : (0:Nat) < 2 ^ (n - m) := Nat.pos_pow_of_pos _ (by norm_num)
    rw [Nat.mul_sub]
    omega
  apply Nat.eq_of_testBit_eq
  intro i
  rw [Nat.testBit_land, hmask, Nat.testBit_mul_pow_two]
  have hqr : a / 2 ^ m * 2 ^ m = 2 ^ m * (a / 2 ^ m) := Nat.mul_comm _ _
  rw [hqr, Nat.testBit_mul_pow_two, Nat.testBit_two_pow_sub_one]
  rcases Nat.lt_or_ge i m with him | him
  · simp [Nat.not_le_of_lt him, him]
  · rcases Nat.lt_or_ge i n with hin | hin
    · simp [him, testBit_div_pow, Nat.add_sub_cancel' him]
      omega
    · have hz : a.testBit i = false :=
        Nat.testBit_lt_two_pow (Nat.lt_of_lt_of_le ha (Nat.pow_le_pow_right (by norm_num) hin))
      simp [him, testBit_div_pow, Nat.add_sub_cancel' him, hz]

theorem mul_pow_or_low {q m b : Nat} (hb : b < 2 ^ m) :
    (q * 2 ^ m) ||| b = q * 2 ^ m + b := by
  have := (Nat.mul_add_lt_is_or hb q).symm
  rw [Nat.mul_comm (2 ^ m) q] at this
  exact this

/-! ## The bit-spreading tables and Z-order encoder from the source -/

theorem bitblast4_getD {v : Nat} (h : v < 16) :
    bitblast4.getD v 0 = spreadBits v := by
  interval_cases v <;> simp [bitblast4, spreadBits]

theorem spreadBits_split (k a b : Nat) (ha : a < 2 ^ k) :
    spreadBits (a + 2 ^ k * b) = spreadBits a + 4 ^ k * spreadBits b := by
  induction k generalizing a b with
  | zero =>
    have : a = 0 := by omega
    subst this
    simp
  | succ k ih =>
    have hp : 2 ^ (k + 1) * b = 2 * (2 ^ k * b) := by ring
    have hk : (2:Nat) ^ (k + 1) = 2 * 2 ^ k := by ring
    rw [spreadBits_eq (a + 2 ^ (k + 1) * b), spreadBits_eq a]
    have e1 : (a + 2 ^ (k + 1) * b) % 2 = a % 2 := by omega
    have e2 : (a + 2 ^ (k + 1) * b) / 2 = a / 2 + 2 ^ k * b := by omega
    rw [e1, e2, ih (a / 2) b (by omega)]
    have h4 : (4:Nat) ^ (k + 1) = 4 * 4 ^ k := by ring
    rw [h4]
    ring

theorem bitblast8_eq (x : Nat) : bitblast8 x = spreadBits (x % 2 ^ 8) := by
  have hf : (0xf : Nat) = 2 ^ 4 - 1 := by norm_num
  have e1 : (x >>> 0) &&& 0xf = x % 16 := by
    rw [Nat.shiftRight_eq_div_pow, hf, Nat.and_pow_two_sub_one_eq_mod]
    norm_num
  have e2 : (x >>> 4) &&& 0xf = x / 16 % 16 := by
    rw [Nat.shiftRight_eq_div_pow, hf, Nat.and_pow_two_sub_one_eq_mod]
  rw [bitblast8, e1, e2, bitblast4_getD (show x % 16 < 16 by omega),
      bitblast4_getD (show x / 16 % 16 < 16 by omega),
      Nat.shiftLeft_eq, Nat.shiftLeft_eq, Nat.lor_comm]
  have hlt : spreadBits (x % 16) * 2 ^ 0 < 2 ^ 8 := by
    have := spreadBits_lt_two_pow (k := 4) (show x % 16 < 2 ^ 4 by omega)
    norm_num at this ⊢
    omega
  rw [mul_pow_or_low hlt]
  have hsplit := spreadBits_split 4 (x % 16) (x / 16 % 16) (show x % 16 < 2 ^ 4 by omega)
  have e3 : x % 2 ^ 8 = x % 16 + 2 ^ 4 * (x / 16 % 16) := by omega
  rw [e3, hsplit]
  norm_num
  ring

theorem bitblast16_eq (x : Nat) : bitblast16 x = spreadBits (x % 2 ^ 16) := by
  have hf : (0xff : Nat) = 2 ^ 8 - 1 := by norm_num
  have e1 : (x >>> 0) &&& 0xff = x % 256 := by
    rw [Nat.shiftRight_eq_div_pow, hf, Nat.and_pow_two_sub_one_eq_mod]
    norm_num
  have e2 : (x >>> 8) &&& 0xff = x / 256 % 256 := by
    rw [Nat.shiftRight_eq_div_pow, hf, Nat.and_pow_two_sub_one_eq_mod]
  rw [bitblast16, e1, e2, bitblast8_eq, bitblast8_eq,
      Nat.shiftLeft_eq, Nat.shiftLeft_eq, Nat.lor_comm]
  have m1 : x % 256 % 2 ^ 8 = x % 256 := by omega
  have m2 : x / 256 % 256 % 2 ^ 8 = x / 256 % 256 := by omega
  rw [m1, m2]
  have hlt : spreadBits (x % 256) * 2 ^ 0 < 2 ^ 16 := by
    have := spreadBits_lt_two_pow (k := 8) (show x % 256 < 2 ^ 8 by omega)
    norm_num at this ⊢
    omega
  rw [mul_pow_or_low hlt]
  have hsplit := spreadBits_split 8 (x % 256) (x / 256 % 256) (show x % 256 < 2 ^ 8 by omega)
  have e3 : x % 2 ^ 16 = x % 256 + 2 ^ 8 * (x / 256 % 256) := by omega
  rw [e3, hsplit]
  norm_num
  ring

theorem bitblast32_eq (x : Nat) : bitblast32 x = spreadBits (x % 2 ^ 32) := by
  have hf : (0xffff : Nat) = 2 ^ 16 - 1 := by norm_num
  have e1 : (x >>> 0) &&& 0xffff = x % 65536 := by
    rw [Nat.shiftRight_eq_div_pow, hf, Nat.and_pow_two_sub_one_eq_mod]
    norm_num
  have e2 : (x >>> 16) &&& 0xffff = x / 65536 % 65536 := by
    rw [Nat.shiftRight_eq_div_pow, hf, Nat.and_pow_two_sub_one_eq_mod]
  rw [bitblast32, e1, e2, bitblast16_eq, bitblast16_eq,
      Nat.shiftLeft_eq, Nat.shiftLeft_eq, Nat.lor_comm]
  have m1 : x % 65536 % 2 ^ 16 = x % 65536 := by omega
  have m2 : x / 65536 % 65536 % 2 ^ 16 = x / 65536 % 65536 := by omega
  rw [m1, m2]
  have hlt : spreadBits (x % 65536) * 2 ^ 0 < 2 ^ 32 := by
    have := spreadBits_lt_two_pow (k := 16) (show x % 65536 < 2 ^ 16 by omega)
    norm_num at this ⊢
    omega
  rw [mul_pow_or_low hlt]
  have hsplit := spreadBits_split 16 (x % 65536) (x / 65536 % 65536)
    (show x % 65536 < 2 ^ 16 by omega)
  have e3 : x % 2 ^ 32 = x % 65536 + 2 ^ 16 * (x / 65536 % 65536) := by omega
  rw [e3, hsplit]
  norm_num
  ring

theorem two_mul_eq_interleave_zero (b : Nat) : 2 * spreadBits b = interleave 0 b := by
  rw [interleave]
  simp

theorem spreadBits_eq_interleave_zero (a : Nat) : spreadBits a = interleave a 0 := by
  rw [interleave]
  simp

theorem zencode64_eq (x y : Nat) :
    zencode64 x y = interleave (x % 2 ^ 32) (y % 2 ^ 32) := by
  rw [zencode64, bitblast32_eq, bitblast32_eq]
  have ex : x % 2 ^ 32 % 2 ^ 32 = x % 2 ^ 32 := Nat.mod_mod_of_dvd _ dvd_rfl
  have ey : y % 2 ^ 32 % 2 ^ 32 = y % 2 ^ 32 := Nat.mod_mod_of_dvd _ dvd_rfl
  rw [ex, ey, Nat.shiftLeft_eq]
  have h2 : spreadBits (y % 2 ^ 32) * 2 ^ 1 = 2 * spreadBits (y % 2 ^ 32) := by ring
  rw [h2]
  apply Nat.eq_of_testBit_eq
  intro i
  rcases Nat.even_or_odd' i with ⟨k, hk | hk⟩ <;> subst hk
  · rw [Nat.testBit_lor, two_mul_eq_interleave_zero,
        spreadBits_eq_interleave_zero, testBit_interleave_even,
        testBit_interleave_even, testBit_interleave_even]
    simp
  · rw [Nat.testBit_lor, two_mul_eq_interleave_zero,
        spreadBits_eq_interleave_zero, testBit_interleave_odd,
        testBit_interleave_odd, testBit_interleave_odd]
    simp

theorem evenBits_zencode64 (x y : Nat) : evenBits (zencode64 x y) = x % 2 ^ 32 := by
  rw [zencode64_eq, evenBits_interleave]

theorem oddBits_zencode64 (x y : Nat) : oddBits (zencode64 x y) = y % 2 ^ 32 := by
  rw [zencode64_eq, oddBits_interleave]

theorem zencode64_lt (x y : Nat) : zencode64 x y < 2 ^ 64 := by
  rw [zencode64_eq]
  have := interleave_lt_two_pow (Nat.mod_lt x (show 0 < 2 ^ 32 by norm_num))
    (Nat.mod_lt y (show 0 < 2 ^ 32 by norm_num))
  norm_num at this ⊢
  omega

theorem zencode64_le_zencode64 {x x' y y' : Nat} (hx' : x' < 2 ^ 32) (hy' : y' < 2 ^ 32)
    (hx : x <= x') (hy : y <= y') : zencode64 x y <= zencode64 x' y' := by
  rw [zencode64_eq, zencode64_eq]
  apply interleave_le_interleave
  · exact Nat.le_trans (Nat.mod_le _ _) ((Nat.mod_eq_of_lt hx').symm ▸ hx) |>.trans_eq
      (Nat.mod_eq_of_lt hx').symm
  · exact Nat.le_trans (Nat.mod_le _ _) ((Nat.mod_eq_of_lt hy').symm ▸ hy) |>.trans_eq
      (Nat.mod_eq_of_lt hy').symm

theorem testBit_spreadBits_even (v k : Nat) : (spreadBits v).testBit (2 * k) = v.testBit k := by
  rw [spreadBits_eq_interleave_zero, testBit_interleave_even]

theorem testBit_spreadBits_odd (v k : Nat) : (spreadBits v).testBit (2 * k + 1) = false := by
  rw [spreadBits_eq_interleave_zero, testBit_interleave_odd, Nat.zero_testBit]

/-- **C6.** For every 32-bit unsigned integer `v`, `bitblast32 v` puts bit `k` of
`v` at bit position `2*k` of the output and leaves every odd bit position zero;
and `zencode64 x y = (bitblast32 y <<< 1) ||| bitblast32 x`, so the bits of `y`
occupy the odd positions of the key and the bits of `x` the even positions. -/
theorem bitblast32_spread_and_zencode64_layout
    {v x y : Nat} (hv : v < 2 ^ 32) (hx : x < 2 ^ 32) (hy : y < 2 ^ 32) :
    (∀ k, (bitblast32 v).testBit (2 * k) = v.testBit k) ∧
    (∀ k, (bitblast32 v).testBit (2 * k + 1) = false) ∧
    zencode64 x y = (bitblast32 y <<< 1) ||| bitblast32 x ∧
    (∀ k, (zencode64 x y).testBit (2 * k) = x.testBit k) ∧
    (∀ k, (zencode64 x y).testBit (2 * k + 1) = y.testBit k) := by
  have hv' : v % 2 ^ 32 = v := Nat.mod_eq_of_lt hv
  have hx' : x % 2 ^ 32 = x := Nat.mod_eq_of_lt hx
  have hy' : y % 2 ^ 32 = y := Nat.mod_eq_of_lt hy
  refine ⟨?_, ?_, ?_, ?_, ?_⟩
  · intro k
    rw [bitblast32_eq, hv', testBit_spreadBits_even]
  · intro k
    rw [bitblast32_eq, hv', testBit_spreadBits_odd]
  · rw [zencode64, hx', hy']
  · intro k
    rw [zencode64_eq, hx', hy', testBit_interleave_even]
  · intro k
    rw [zencode64_eq, hx', hy', testBit_interleave_odd]

theorem bitblast32_spread_and_zencode64_layout_witness :
    (∀ k, (bitblast32 5).testBit (2 * k) = (5:Nat).testBit k) ∧
    (∀ k, (bitblast32 5).testBit (2 * k + 1) = false) ∧
    zencode64 3 1 = (bitblast32 1 <<< 1) ||| bitblast32 3 ∧
    (∀ k, (zencode64 3 1).testBit (2 * k) = (3:Nat).testBit k) ∧
    (∀ k, (zencode64 3 1).testBit (2 * k + 1) = (1:Nat).testBit k) :=
  bitblast32_spread_and_zencode64_layout (by norm_num) (by norm_num) (by norm_num)

theorem zencode64_inj_iff {x1 y1 x2 y2 : Nat}
    (hx1 : x1 < 2 ^ 32) (hy1 : y1 < 2 ^ 32) (hx2 : x2 < 2 ^ 32) (hy2 : y2 < 2 ^ 32) :
    zencode64 x1 y1 = zencode64 x2 y2 ↔ (x1 = x2 ∧ y1 = y2) := by
  constructor
  · intro h
    have he := congrArg evenBits h
    have ho := congrArg oddBits h
    rw [evenBits_zencode64, evenBits_zencode64, Nat.mod_eq_of_lt hx1,
        Nat.mod_eq_of_lt hx2] at he
    rw [oddBits_zencode64, oddBits_zencode64, Nat.mod_eq_of_lt hy1,
        Nat.mod_eq_of_lt hy2] at ho
    exact ⟨he, ho⟩
  · rintro ⟨rfl, rfl⟩
    rfl

/-- **C7.** `zencode64` is deterministic (it is a function, so equal inputs give
equal keys: the `↔` direction from right to left) and injective on integer pairs
in `[0, 2^32-1]^2`: distinct in-domain pairs have distinct keys. -/
theorem zencode64_deterministic_injective {x1 y1 x2 y2 : Nat}
    (hx1 : x1 < 2 ^ 32) (hy1 : y1 < 2 ^ 32) (hx2 : x2 < 2 ^ 32) (hy2 : y2 < 2 ^ 32) :
    zencode64 x1 y1 = zencode64 x2 y2 ↔ (x1 = x2 ∧ y1 = y2) :=
  zencode64_inj_iff hx1 hy1 hx2 hy2

theorem zencode64_deterministic_injective_witness :
    zencode64 7 11 = zencode64 7 12 ↔ ((7:Nat) = 7 ∧ (11:Nat) = 12) :=
  zencode64_deterministic_injective (by norm_num) (by norm_num) (by norm_num) (by norm_num)

/-! ## Binary searches from the source

The `while (n > 0)` loops become fuel-indexed recursions.  In the source,
`n` starts as `l - f` and strictly decreases every iteration, so `l - f`
units of fuel always suffice; the wrappers pass exactly that. -/

theorem bsearchltGo_spec (a : List Nat) (v : Nat) :
    ∀ fuel n f, n <= fuel →
    (∀ i j, f <= i → i <= j → j < f + n → a.getD j 0 < v → a.getD i 0 < v) →
    f <= bsearchltGo a v fuel f n ∧ bsearchltGo a v fuel f n <= f + n ∧
    (∀ i, f <= i → i < bsearchltGo a v fuel f n → a.getD i 0 < v) ∧
    (∀ i, bsearchltGo a v fuel f n <= i → i < f + n → ¬ a.getD i 0 < v) := by
  intro fuel
  induction fuel with
  | zero =>
    intro n f hn _
    have h : n = 0 := by omega
    subst h
    have e : bsearchltGo a v 0 f 0 = f := rfl
    rw [e]
    refine ⟨Nat.le_refl f, by omega, ?_, ?_⟩
    · intro i h1 h2
      omega
    · intro i h1 h2 h3
      omega
  | succ fuel ih =>
    intro n f hn hpart
    by_cases h0 : n = 0
    · subst h0
      have e : bsearchltGo a v (fuel + 1) f 0 = f := rfl
      rw [e]
      refine ⟨Nat.le_refl f, by omega, ?_, ?_⟩
      · intro i h1 h2
        omega
      · intro i h1 h2 h3
        omega
    · rw [bsearchltGo]
      simp only [h0, if_false]
      by_cases hc : a.getD (f + n / 2) 0 < v
      · simp only [hc, if_true]
        have hrec := ih (n - n / 2 - 1) (f + n / 2 + 1) (by omega)
          (by
            intro i j hi hij hj hpj
            exact hpart i j (by omega) hij (by omega) hpj)
        obtain ⟨h1, h2, h3, h4⟩ := hrec
        refine ⟨by omega, by omega, ?_, ?_⟩
        · intro i hfi hir
          by_cases hii : i < f + n / 2 + 1
          · exact hpart i (f + n / 2) hfi (by omega) (by omega) hc
          · exact h3 i (by omega) hir
        · intro i hri hin
          exact h4 i hri (by omega)
      · simp only [hc, if_false]
        have hrec := ih (n / 2) f (by omega)
          (by
            intro i j hi hij hj hpj
            exact hpart i j hi hij (by omega) hpj)
        obtain ⟨h1, h2, h3, h4⟩ := hrec
        refine ⟨h1, by omega, h3, ?_⟩
        intro i hri hin
        by_cases hii : i < f + n / 2
        · exact h4 i hri hii
        · intro hpi
          exact hc (hpart (f + n / 2) i (by omega) (by omega) (by omega) hpi)

theorem bsearchlteGo_spec (a : List Nat) (v : Nat) :
    ∀ fuel n f, n <= fuel →
    (∀ i j, f <= i → i <= j → j < f + n → a.getD j 0 <= v → a.getD i 0 <= v) →
    f <= bsearchlteGo a v fuel f n ∧ bsearchlteGo a v fuel f n <= f + n ∧
    (∀ i, f <= i → i < bsearchlteGo a v fuel f n → a.getD i 0 <= v) ∧
    (∀ i, bsearchlteGo a v fuel f n <= i → i < f + n → ¬ a.getD i 0 <= v) := by
  intro fuel
  induction fuel with
  | zero =>
    intro n f hn _
    have h : n = 0 := by omega
    subst h
    have e : bsearchlteGo a v 0 f 0 = f := rfl
    rw [e]
    refine ⟨Nat.le_refl f, by omega, ?_, ?_⟩
    · intro i h1 h2
      omega
    · intro i h1 h2 h3
      omega
  | succ fuel ih =>
    intro n f hn hpart
    by_cases h0 : n = 0
    · subst h0
      have e : bsearchlteGo a v (fuel + 1) f 0 = f := rfl
      rw [e]
      refine ⟨Nat.le_refl f, by omega, ?_, ?_⟩
      · intro i h1 h2
        omega
      · intro i h1 h2 h3
        omega
    · rw [bsearchlteGo]
      simp only [h0, if_false]
      by_cases hc : a.getD (f + n / 2) 0 <= v
      · simp only [hc, if_true]
        have hrec := ih (n - n / 2 - 1) (f + n / 2 + 1) (by omega)
          (by
            intro i j hi hij hj hpj
            exact hpart i j (by omega) hij (by omega) hpj)
        obtain ⟨h1, h2, h3, h4⟩ := hrec
        refine ⟨by omega, by omega, ?_, ?_⟩
        · intro i hfi hir
          by_cases hii : i < f + n / 2 + 1
          · exact hpart i (f + n / 2) hfi (by omega) (by omega) hc
          · exact h3 i (by omega) hir
        · intro i hri hin
          exact h4 i hri (by omega)
      · simp only [hc, if_false]
        have hrec := ih (n / 2) f (by omega)
          (by
            intro i j hi hij hj hpj
            exact hpart i j hi hij (by omega) hpj)
        obtain ⟨h1, h2, h3, h4⟩ := hrec
        refine ⟨h1, by omega, h3, ?_⟩
        intro i hri hin
        by_cases hii : i < f + n / 2
        · exact h4 i hri hii
        · intro hpi
          exact hc (hpart (f + n / 2) i (by omega) (by omega) (by omega) hpi)

theorem bsearchlt_spec {a : List Nat} {f l v : Nat} (hs : SortedNat a)
    (hfl : f <= l) (hl : l <= a.length) :
    f <= bsearchlt a f l v ∧ bsearchlt a f l v <= l ∧
    (∀ i, f <= i → i < bsearchlt a f l v → a.getD i 0 < v) ∧
    (∀ i, bsearchlt a f l v <= i → i < l → v <= a.getD i 0) := by
  have h := bsearchltGo_spec a v (l - f) (l - f) f (Nat.le_refl _)
    (by
      intro i j hi hij hj hpj
      exact Nat.lt_of_le_of_lt (hs i j hij (by omega)) hpj)
  rw [bsearchlt]
  obtain ⟨h1, h2, h3, h4⟩ := h
  refine ⟨h1, by omega, h3, ?_⟩
  intro i hri hil
  have := h4 i hri (by omega)
  omega

theorem bsearchlte_spec {a : List Nat} {f l v : Nat} (hs : SortedNat a)
    (hfl : f <= l) (hl : l <= a.length) :
    f <= bsearchlte a f l v ∧ bsearchlte a f l v <= l ∧
    (∀ i, f <= i → i < bsearchlte a f l v → a.getD i 0 <= v) ∧
    (∀ i, bsearchlte a f l v <= i → i < l → v < a.getD i 0) := by
  have h := bsearchlteGo_spec a v (l - f) (l - f) f (Nat.le_refl _)
    (by
      intro i j hi hij hj hpj
      exact Nat.le_trans (hs i j hij (by omega)) hpj)
  rw [bsearchlte]
  obtain ⟨h1, h2, h3, h4⟩ := h
  refine ⟨h1, by omega, h3, ?_⟩
  intro i hri hil
  have := h4 i hri (by omega)
  omega

/-! ## BIGMIN from the source

The `while (mask)` loop becomes a fuel-indexed recursion.  `bigmin` passes
64 units of fuel; the mask starts at `2^63` and is halved once per
iteration, so it reaches `0` (ending the loop) after exactly 64 iterations
and the fuel never runs out.  The nested `if`s below implement exactly the
source's six-way case chain on the bit triple
(`zval & mask`, `zmin & mask`, `zmax & mask`): the cases are mutually
exclusive, so testing them in a different order is the identical function;
the two "can not happen" triples fall into the final catch-all, which
continues with unchanged state just as the source's `else {}` does. -/

theorem interleave_lor (a b c d : Nat) :
    interleave a b ||| interleave c d = interleave (a ||| c) (b ||| d) := by
  apply eq_of_evenBits_oddBits
  · rw [evenBits_lor, evenBits_interleave, evenBits_interleave, evenBits_interleave]
  · rw [oddBits_lor, oddBits_interleave, oddBits_interleave, oddBits_interleave]

theorem shiftRight_one (x : Nat) : x >>> 1 = x / 2 := by
  rw [Nat.shiftRight_eq_div_pow, Nat.pow_one]

theorem two_pow_63_interleave : (0x8000000000000000 : Nat) = interleave 0 (2 ^ 31) := by
  rw [interleave, spreadBits_zero, spreadBits_two_pow]
  norm_num

theorem spreadBits_ones_32 : spreadBits 4294967295 = 6148914691236517205 := by
  have h := three_mul_spreadBits_pred_pow 32
  rw [show (2:Nat) ^ 32 - 1 = 4294967295 by norm_num,
      show (4:Nat) ^ 32 - 1 = 18446744073709551615 by norm_num] at h
  omega

theorem spreadBits_ones_31 : spreadBits 2147483647 = 1537228672809129301 := by
  have h := three_mul_spreadBits_pred_pow 31
  rw [show (2:Nat) ^ 31 - 1 = 2147483647 by norm_num,
      show (4:Nat) ^ 31 - 1 = 4611686018427387903 by norm_num] at h
  omega

theorem lmF_64 : lmF 64 = 0x5555555555555555 := by
  rw [lmF, if_neg (by norm_num)]
  rw [show (64 - 1) / 2 + 1 = 32 by norm_num]
  rw [show (2:Nat) ^ 32 - 2 ^ 32 = 0 by omega]
  rw [interleave, spreadBits_zero]
  rw [show (2:Nat) ^ 32 - 1 = 4294967295 by norm_num, spreadBits_ones_32]

theorem loF_64 : loF 64 = 0x2aaaaaaaaaaaaaaa := by
  rw [loF, if_neg (by norm_num)]
  rw [show (64 - 1) / 2 = 31 by norm_num]
  rw [interleave, spreadBits_zero]
  rw [show (2:Nat) ^ 31 - 1 = 2147483647 by norm_num, spreadBits_ones_31]

theorem or_top_fill {m : Nat} (hm : m <= 31) :
    (2 ^ 31 - 2 ^ m) ||| 2 ^ 31 = 2 ^ 32 - 2 ^ m := by
  have hp : (0:Nat) < 2 ^ m := Nat.pos_pow_of_pos _ (by norm_num)
  have hle : (2:Nat) ^ m <= 2 ^ 31 := Nat.pow_le_pow_right (by norm_num) hm
  have hlt : 2 ^ 31 - 2 ^ m < 2 ^ 31 := by
    have : (0:Nat) < 2 ^ 31 := Nat.pos_pow_of_pos _ (by norm_num)
    omega
  have h := Nat.mul_add_lt_is_or (i := 31) hlt 1
  rw [Nat.mul_one] at h
  rw [Nat.lor_comm, ← h]
  have h2 : (2:Nat) ^ 32 = 2 ^ 31 + 2 ^ 31 := by norm_num
  omega

theorem or_ones_fill : ((2:Nat) ^ 31 - 1) ||| 2 ^ 31 = 2 ^ 32 - 1 := by
  have h := or_top_fill (m := 0) (by norm_num)
  rw [Nat.pow_zero] at h
  exact h

theorem lmF_step (j : Nat) (hj : j + 2 <= 64) :
    lmF (j + 2) >>> 1 ||| 0x8000000000000000 = lmF (j + 1) := by
  have e2 : (j + 2 - 1) = j + 1 := by omega
  have e1 : (j + 1 - 1) = j := by omega
  rw [lmF, lmF, e2, e1, shiftRight_one, two_pow_63_interleave]
  rcases Nat.even_or_odd' j with ⟨J, hJ | hJ⟩ <;> subst hJ
  · -- j = 2J even: index j+1 is odd, index j is even
    rw [if_neg (show ¬((2 * J + 1) % 2 = 0) by omega),
        if_pos (show (2 * J) % 2 = 0 by omega)]
    rw [show (2 * J + 1) / 2 = J by omega, show (2 * J) / 2 = J by omega]
    rw [interleave_div_two, interleave_lor, Nat.or_zero]
    rw [show ((2:Nat) ^ 32 - 1) / 2 = 2 ^ 31 - 1 by norm_num, or_ones_fill]
  · -- j = 2J+1 odd: index j+1 is even, index j is odd
    rw [if_pos (show (2 * J + 1 + 1) % 2 = 0 by omega),
        if_neg (show ¬((2 * J + 1) % 2 = 0) by omega)]
    rw [show (2 * J + 1 + 1) / 2 = J + 1 by omega, show (2 * J + 1) / 2 = J by omega]
    rw [interleave_div_two, interleave_lor, Nat.or_zero]
    have d2 : (2 ^ 32 - 2 ^ (J + 1 + 1)) / 2 = 2 ^ 31 - 2 ^ (J + 1) := by
      have h1 : (2:Nat) ^ (J + 1 + 1) = 2 * 2 ^ (J + 1) := by ring
      have h2 : (2:Nat) ^ 32 = 2 * 2 ^ 31 := by norm_num
      omega
    rw [d2, or_top_fill (show J + 1 <= 31 by omega)]

theorem loF_step (j : Nat) : loF (j + 2) >>> 1 = loF (j + 1) := by
  have e2 : (j + 2 - 1) = j + 1 := by omega
  have e1 : (j + 1 - 1) = j := by omega
  rw [loF, loF, e2, e1, shiftRight_one]
  rcases Nat.even_or_odd' j with ⟨J, hJ | hJ⟩ <;> subst hJ
  · rw [if_neg (show ¬((2 * J + 1) % 2 = 0) by omega),
        if_pos (show (2 * J) % 2 = 0 by omega)]
    rw [show (2 * J + 1) / 2 = J by omega, show (2 * J) / 2 = J by omega]
    rw [interleave_div_two]
  · rw [if_pos (show (2 * J + 1 + 1) % 2 = 0 by omega),
        if_neg (show ¬((2 * J + 1) % 2 = 0) by omega)]
    rw [show (2 * J + 1 + 1) / 2 = J + 1 by omega, show (2 * J + 1) / 2 = J by omega]
    rw [interleave_div_two]
    have d1 : (2 ^ (J + 1) - 1) / 2 = 2 ^ J - 1 := by
      have h1 : (2:Nat) ^ (J + 1) = 2 * 2 ^ J := by ring
      omega
    rw [d1]

theorem le_of_coords {a b : Nat} (hE : evenBits a <= evenBits b)
    (hO : oddBits a <= oddBits b) : a <= b := by
  conv_lhs => rw [← interleave_evenBits_oddBits a]
  conv_rhs => rw [← interleave_evenBits_oddBits b]
  exact interleave_le_interleave hE hO

theorem interleave_inj_iff {a b c d : Nat} :
    interleave a b = interleave c d ↔ (a = c ∧ b = d) := by
  constructor
  · intro h
    constructor
    · have := congrArg evenBits h
      rwa [evenBits_interleave, evenBits_interleave] at this
    · have := congrArg oddBits h
      rwa [oddBits_interleave, oddBits_interleave] at this
  · rintro ⟨rfl, rfl⟩
    rfl

theorem interleave_div_pow_even (a b m : Nat) :
    interleave a b / 2 ^ (2 * m) = interleave (a / 2 ^ m) (b / 2 ^ m) := by
  induction m generalizing a b with
  | zero => simp
  | succ m ih =>
    have h1 : (2:Nat) ^ (2 * (m + 1)) = 4 * 2 ^ (2 * m) := by
      rw [show 2 * (m + 1) = 2 * m + 2 by ring]
      ring
    rw [h1, ← Nat.div_div_eq_div_mul, interleave_div_four, ih]
    have e1 : a / 2 / 2 ^ m = a / 2 ^ (m + 1) := by
      rw [Nat.div_div_eq_div_mul, ← Nat.pow_succ']
    have e2 : b / 2 / 2 ^ m = b / 2 ^ (m + 1) := by
      rw [Nat.div_div_eq_div_mul, ← Nat.pow_succ']
    rw [e1, e2]

theorem interleave_div_pow_odd (a b m : Nat) :
    interleave a b / 2 ^ (2 * m + 1) = interleave (b / 2 ^ m) (a / 2 ^ (m + 1)) := by
  have h1 : (2:Nat) ^ (2 * m + 1) = 2 ^ (2 * m) * 2 := by ring
  rw [h1, Nat.mul_comm, ← Nat.div_div_eq_div_mul, interleave_div_two,
      interleave_div_pow_even]
  have e1 : a / 2 / 2 ^ m = a / 2 ^ (m + 1) := by
    rw [Nat.div_div_eq_div_mul, ← Nat.pow_succ']
  rw [e1]

/-- Agreement of keys above a bit position, decomposed into per-dimension
agreement of the coordinate that owns position `j` (the "active" one, whose
low `j/2 + 1` bits are below the cut) and the other one. -/
theorem agree_acp_iff (j : Nat) {z w : Nat} :
    z / 2 ^ (j + 1) = w / 2 ^ (j + 1) ↔
      (activeCoord j z / 2 ^ (j / 2 + 1) = activeCoord j w / 2 ^ (j / 2 + 1) ∧
       passiveCoord j z / 2 ^ ((j + 1) / 2) = passiveCoord j w / 2 ^ ((j + 1) / 2)) := by
  conv_lhs => rw [← interleave_evenBits_oddBits z, ← interleave_evenBits_oddBits w]
  simp only [activeCoord, passiveCoord]
  rcases Nat.even_or_odd' j with ⟨J, hJ | hJ⟩ <;> subst hJ
  · have hp : (2 * J) % 2 = 0 := by omega
    rw [if_pos hp, if_pos hp, if_pos hp, if_pos hp]
    rw [interleave_div_pow_odd, interleave_div_pow_odd, interleave_inj_iff]
    rw [show (2 * J) / 2 + 1 = J + 1 by omega, show (2 * J + 1) / 2 = J by omega]
    tauto
  · have hp : ¬((2 * J + 1) % 2 = 0) := by omega
    rw [if_neg hp, if_neg hp, if_neg hp, if_neg hp]
    rw [show 2 * J + 1 + 1 = 2 * (J + 1) by ring, interleave_div_pow_even,
        interleave_div_pow_even, interleave_inj_iff]
    rw [show (2 * J + 1) / 2 + 1 = J + 1 by omega,
        show (2 * (J + 1)) / 2 = J + 1 by omega]
    tauto

theorem inBox_acp (j : Nat) {lo hi z : Nat} :
    inBox lo hi z ↔
      (activeCoord j lo <= activeCoord j z ∧ activeCoord j z <= activeCoord j hi ∧
       passiveCoord j lo <= passiveCoord j z ∧ passiveCoord j z <= passiveCoord j hi) := by
  rw [inBox, activeCoord, activeCoord, activeCoord, passiveCoord, passiveCoord, passiveCoord]
  by_cases h : j % 2 = 0
  · rw [if_pos h, if_pos h, if_pos h, if_pos h, if_pos h, if_pos h]
  · rw [if_neg h, if_neg h, if_neg h, if_neg h, if_neg h, if_neg h]
    tauto

theorem le_of_acp (j : Nat) {a b : Nat}
    (ha : activeCoord j a <= activeCoord j b)
    (hp : passiveCoord j a <= passiveCoord j b) : a <= b := by
  simp only [activeCoord] at ha
  simp only [passiveCoord] at hp
  by_cases h : j % 2 = 0
  · rw [if_pos h, if_pos h] at ha
    rw [if_pos h, if_pos h] at hp
    exact le_of_coords ha hp
  · rw [if_neg h, if_neg h] at ha
    rw [if_neg h, if_neg h] at hp
    exact le_of_coords hp ha

theorem eq_of_acp (j : Nat) {a b : Nat}
    (ha : activeCoord j a = activeCoord j b)
    (hp : passiveCoord j a = passiveCoord j b) : a = b := by
  simp only [activeCoord] at ha
  simp only [passiveCoord] at hp
  by_cases h : j % 2 = 0
  · rw [if_pos h, if_pos h] at ha
    rw [if_pos h, if_pos h] at hp
    exact eq_of_evenBits_oddBits ha hp
  · rw [if_neg h, if_neg h] at ha
    rw [if_neg h, if_neg h] at hp
    exact eq_of_evenBits_oddBits hp ha

theorem active_lt_two_pow (j : Nat) {z : Nat} (hz : z < 2 ^ 64) :
    activeCoord j z < 2 ^ 32 := by
  have h64 : z < 2 ^ (2 * 32) := by norm_num at hz ⊢; exact hz
  rw [activeCoord]
  by_cases h : j % 2 = 0
  · rw [if_pos h]
    exact evenBits_lt_two_pow h64
  · rw [if_neg h]
    exact oddBits_lt_two_pow h64

theorem passive_lt_two_pow (j : Nat) {z : Nat} (hz : z < 2 ^ 64) :
    passiveCoord j z < 2 ^ 32 := by
  have h64 : z < 2 ^ (2 * 32) := by norm_num at hz ⊢; exact hz
  rw [passiveCoord]
  by_cases h : j % 2 = 0
  · rw [if_pos h]
    exact oddBits_lt_two_pow h64
  · rw [if_neg h]
    exact evenBits_lt_two_pow h64

theorem lt_two_pow_of_acp (j : Nat) {z : Nat}
    (ha : activeCoord j z < 2 ^ 32) (hp : passiveCoord j z < 2 ^ 32) : z < 2 ^ 64 := by
  rw [activeCoord] at ha
  rw [passiveCoord] at hp
  have hE : evenBits z < 2 ^ 32 := by
    by_cases h : j % 2 = 0
    · rwa [if_pos h] at ha
    · rwa [if_neg h] at hp
  have hO : oddBits z < 2 ^ 32 := by
    by_cases h : j % 2 = 0
    · rwa [if_pos h] at hp
    · rwa [if_neg h] at ha
  have := interleave_lt_two_pow hE hO
  rw [interleave_evenBits_oddBits] at this
  norm_num at this ⊢
  exact this

theorem testBit_active (j z : Nat) : z.testBit j = (activeCoord j z).testBit (j / 2) := by
  rw [activeCoord]
  rcases Nat.even_or_odd' j with ⟨J, hJ | hJ⟩ <;> subst hJ
  · rw [if_pos (by omega : (2 * J) % 2 = 0), show (2 * J) / 2 = J by omega,
        testBit_evenBits]
  · rw [if_neg (by omega : ¬((2 * J + 1) % 2 = 0)), show (2 * J + 1) / 2 = J by omega,
        testBit_oddBits]

/-! ### Half-classification arithmetic for one coordinate

With `p = 2^J`, a coordinate `w` whose bits above `J` are fixed
(`w / (2*p) = P`) lies in the lower half `[2pP, 2pP + p - 1]` when its bit
`J` is 0 and in the upper half `[2pP + p, 2pP + 2p - 1]` when it is 1. -/

theorem quot_lower {w q P : Nat} (hdiv : w / q = P) : q * P <= w := by
  rw [← hdiv, Nat.mul_comm]
  exact Nat.div_mul_le_self w q

theorem half_true_lower {w p P : Nat} (_hp : 0 < p) (hdiv : w / (2 * p) = P)
    (hbit : w / p % 2 = 1) : 2 * p * P + p <= w := by
  have e : w / p / 2 = P := by
    rw [Nat.div_div_eq_div_mul, Nat.mul_comm p 2]
    exact hdiv
  have h1 : w / p = 2 * P + 1 := by omega
  calc 2 * p * P + p = (2 * P + 1) * p := by ring
  _ = w / p * p := by rw [h1]
  _ <= w := Nat.div_mul_le_self w p

theorem half_false_upper {w p P : Nat} (hp : 0 < p) (hdiv : w / (2 * p) = P)
    (hbit : w / p % 2 = 0) : w <= 2 * p * P + (p - 1) := by
  have e : w / p / 2 = P := by
    rw [Nat.div_div_eq_div_mul, Nat.mul_comm p 2]
    exact hdiv
  have h1 : w / p = 2 * P := by omega
  have h2 : p * (w / p) + w % p = w := Nat.div_add_mod w p
  have h3 : w % p < p := Nat.mod_lt _ hp
  have h4 : p * (w / p) = 2 * p * P := by rw [h1]; ring
  omega

theorem half_bit_of_ge {w p P : Nat} (hp : 0 < p) (hdiv : w / (2 * p) = P)
    (hge : 2 * p * P + p <= w) : w / p % 2 = 1 := by
  have e : w / p / 2 = P := by
    rw [Nat.div_div_eq_div_mul, Nat.mul_comm p 2]
    exact hdiv
  have h1 : (2 * p * P + p) / p = 2 * P + 1 := by
    rw [show 2 * p * P + p = p * (2 * P + 1) by ring, Nat.mul_div_cancel_left _ hp]
  have h2 : (2 * p * P + p) / p <= w / p := Nat.div_le_div_right hge
  omega

theorem half_bit_of_le {w p P : Nat} (hp : 0 < p) (hdiv : w / (2 * p) = P)
    (hle : w <= 2 * p * P + (p - 1)) : w / p % 2 = 0 := by
  have e : w / p / 2 = P := by
    rw [Nat.div_div_eq_div_mul, Nat.mul_comm p 2]
    exact hdiv
  have h1 : (2 * p * P + (p - 1)) / p = 2 * P := by
    rw [show 2 * p * P + (p - 1) = p * (2 * P) + (p - 1) by ring, Nat.mul_add_div hp]
    have : (p - 1) / p = 0 := Nat.div_eq_of_lt (by omega)
    omega
  have h2 : w / p <= (2 * p * P + (p - 1)) / p := Nat.div_le_div_right hle
  omega

theorem form_true_facts {p P : Nat} (hp : 0 < p) :
    (2 * p * P + p) / (2 * p) = P ∧ (2 * p * P + p) / p % 2 = 1 := by
  constructor
  · rw [show 2 * p * P + p = 2 * p * P + p from rfl,
        show 2 * p * P + p = (2 * p) * P + p by ring, Nat.mul_add_div (by omega)]
    have : p / (2 * p) = 0 := Nat.div_eq_of_lt (by omega)
    omega
  · rw [show 2 * p * P + p = p * (2 * P + 1) by ring, Nat.mul_div_cancel_left _ hp]
    omega

theorem form_false_facts {p P : Nat} (hp : 0 < p) :
    (2 * p * P + (p - 1)) / (2 * p) = P ∧ (2 * p * P + (p - 1)) / p % 2 = 0 := by
  constructor
  · rw [show 2 * p * P + (p - 1) = (2 * p) * P + (p - 1) by ring, Nat.mul_add_div (by omega)]
    have : (p - 1) / (2 * p) = 0 := Nat.div_eq_of_lt (by omega)
    omega
  · rw [show 2 * p * P + (p - 1) = p * (2 * P) + (p - 1) by ring, Nat.mul_add_div hp]
    have : (p - 1) / p = 0 := Nat.div_eq_of_lt (by omega)
    omega

theorem two_pow_even_interleave (J : Nat) : (2:Nat) ^ (2 * J) = interleave (2 ^ J) 0 := by
  rw [interleave, spreadBits_two_pow, spreadBits_zero, Nat.mul_zero, Nat.add_zero,
      Nat.pow_mul]

theorem two_pow_odd_interleave (J : Nat) : (2:Nat) ^ (2 * J + 1) = interleave 0 (2 ^ J) := by
  rw [interleave, spreadBits_zero, spreadBits_two_pow, Nat.pow_succ, Nat.pow_mul,
      Nat.zero_add, Nat.mul_comm]

/-- Unfolding `lmF (j+1)` and `loF (j+1)` into interleaved coordinate masks,
with the dimension owning bit `j` active. -/
theorem lmF_parity_even (J : Nat) :
    lmF (2 * J + 1) = interleave (2 ^ 32 - 2 ^ (J + 1)) (2 ^ 32 - 1) := by
  rw [lmF, show 2 * J + 1 - 1 = 2 * J by omega, if_pos (by omega : (2 * J) % 2 = 0),
      show (2 * J) / 2 = J by omega]

theorem lmF_parity_odd (J : Nat) :
    lmF (2 * J + 1 + 1) = interleave (2 ^ 32 - 1) (2 ^ 32 - 2 ^ (J + 1)) := by
  rw [lmF, show 2 * J + 1 + 1 - 1 = 2 * J + 1 by omega,
      if_neg (by omega : ¬((2 * J + 1) % 2 = 0)), show (2 * J + 1) / 2 = J by omega]

theorem loF_parity_even (J : Nat) :
    loF (2 * J + 1) = interleave (2 ^ J - 1) 0 := by
  rw [loF, show 2 * J + 1 - 1 = 2 * J by omega, if_pos (by omega : (2 * J) % 2 = 0),
      show (2 * J) / 2 = J by omega]

theorem loF_parity_odd (J : Nat) :
    loF (2 * J + 1 + 1) = interleave 0 (2 ^ J - 1) := by
  rw [loF, show 2 * J + 1 + 1 - 1 = 2 * J + 1 by omega,
      if_neg (by omega : ¬((2 * J + 1) % 2 = 0)), show (2 * J + 1) / 2 = J by omega]

theorem interleave_land (a b c d : Nat) :
    interleave a b &&& interleave c d = interleave (a &&& c) (b &&& d) := by
  apply eq_of_evenBits_oddBits
  · rw [evenBits_land, evenBits_interleave, evenBits_interleave, evenBits_interleave]
  · rw [oddBits_land, oddBits_interleave, oddBits_interleave, oddBits_interleave]

/-- Effect of the source's two state updates
`(z & loadmask) | mask` and `(z & loadmask) | loadones` on the two
coordinates of `z`, at the step where `mask = 2^j`: the coordinate owning
bit `j` has its bits at and below `J = j/2` replaced by `10…0` resp. `01…1`,
and the other coordinate is untouched. -/
theorem evenBits_update (z A B C D : Nat) :
    evenBits ((z &&& interleave A B) ||| interleave C D) = (evenBits z &&& A) ||| C := by
  rw [evenBits_lor, evenBits_land, evenBits_interleave, evenBits_interleave]

theorem oddBits_update (z A B C D : Nat) :
    oddBits ((z &&& interleave A B) ||| interleave C D) = (oddBits z &&& B) ||| D := by
  rw [oddBits_lor, oddBits_land, oddBits_interleave, oddBits_interleave]

theorem update_coords {j z : Nat} (hj : j <= 63) (hz : z < 2 ^ 64) :
    activeCoord j ((z &&& lmF (j + 1)) ||| 2 ^ j)
        = activeCoord j z / 2 ^ (j / 2 + 1) * 2 ^ (j / 2 + 1) + 2 ^ (j / 2) ∧
    passiveCoord j ((z &&& lmF (j + 1)) ||| 2 ^ j) = passiveCoord j z ∧
    activeCoord j ((z &&& lmF (j + 1)) ||| loF (j + 1))
        = activeCoord j z / 2 ^ (j / 2 + 1) * 2 ^ (j / 2 + 1) + (2 ^ (j / 2) - 1) ∧
    passiveCoord j ((z &&& lmF (j + 1)) ||| loF (j + 1)) = passiveCoord j z := by
  have hzE : evenBits z < 2 ^ 32 := evenBits_lt_two_pow (k := 32) (by norm_num at hz ⊢; exact hz)
  have hzO : oddBits z < 2 ^ 32 := oddBits_lt_two_pow (k := 32) (by norm_num at hz ⊢; exact hz)
  rcases Nat.even_or_odd' j with ⟨J, hJ | hJ⟩ <;> subst hJ
  · -- j = 2J: the active dimension is the even one
    have hJ31 : J + 1 <= 32 := by omega
    have e1 : (2 * J) / 2 = J := by omega
    have hmaskE : evenBits z &&& (2 ^ 32 - 2 ^ (J + 1))
        = evenBits z / 2 ^ (J + 1) * 2 ^ (J + 1) := and_high_mask hJ31 hzE
    have hmaskO : oddBits z &&& (2 ^ 32 - 1) = oddBits z := by
      rw [Nat.and_pow_two_sub_one_eq_mod, Nat.mod_eq_of_lt hzO]
    have hpow : (2:Nat) ^ J < 2 ^ (J + 1) := by
      have : (0:Nat) < 2 ^ J := Nat.pos_pow_of_pos _ (by norm_num)
      rw [Nat.pow_succ]
      omega
    simp only [activeCoord, passiveCoord, if_pos (by omega : (2 * J) % 2 = 0), e1]
    rw [lmF_parity_even, loF_parity_even, two_pow_even_interleave]
    refine ⟨?_, ?_, ?_, ?_⟩
    · rw [evenBits_update, hmaskE, mul_pow_or_low hpow]
    · rw [oddBits_update, hmaskO, Nat.or_zero]
    · rw [evenBits_update, hmaskE,
          mul_pow_or_low (show 2 ^ J - 1 < 2 ^ (J + 1) by omega)]
    · rw [oddBits_update, hmaskO, Nat.or_zero]
  · -- j = 2J+1: the active dimension is the odd one
    have hJ31 : J + 1 <= 32 := by omega
    have e1 : (2 * J + 1) / 2 = J := by omega
    have hmaskO : oddBits z &&& (2 ^ 32 - 2 ^ (J + 1))
        = oddBits z / 2 ^ (J + 1) * 2 ^ (J + 1) := and_high_mask hJ31 hzO
    have hmaskE : evenBits z &&& (2 ^ 32 - 1) = evenBits z := by
      rw [Nat.and_pow_two_sub_one_eq_mod, Nat.mod_eq_of_lt hzE]
    have hpow : (2:Nat) ^ J < 2 ^ (J + 1) := by
      have : (0:Nat) < 2 ^ J := Nat.pos_pow_of_pos _ (by norm_num)
      rw [Nat.pow_succ]
      omega
    simp only [activeCoord, passiveCoord, if_neg (by omega : ¬((2 * J + 1) % 2 = 0)), e1]
    rw [lmF_parity_odd, loF_parity_odd, two_pow_odd_interleave]
    refine ⟨?_, ?_, ?_, ?_⟩
    · rw [oddBits_update, hmaskO, mul_pow_or_low hpow]
    · rw [evenBits_update, hmaskE, Nat.or_zero]
    · rw [oddBits_update, hmaskO,
          mul_pow_or_low (show 2 ^ J - 1 < 2 ^ (J + 1) by omega)]
    · rw [evenBits_update, hmaskE, Nat.or_zero]

/-- Any member of a box whose corners agree with `zval` above bit `j` also
agrees with `zval` above bit `j`. -/
theorem box_member_agree {zval zmn zmx w j : Nat}
    (hagmn : zval / 2 ^ (j + 1) = zmn / 2 ^ (j + 1))
    (hagmx : zval / 2 ^ (j + 1) = zmx / 2 ^ (j + 1))
    (hw : inBox zmn zmx w) : zval / 2 ^ (j + 1) = w / 2 ^ (j + 1) := by
  rw [agree_acp_iff j] at hagmn hagmx ⊢
  rw [inBox_acp j] at hw
  obtain ⟨ha1, ha2, hp1, hp2⟩ := hw
  constructor
  · have := agreeAbove_of_between ha1 ha2 (hagmn.1.symm.trans hagmx.1)
    rw [this, hagmn.1]
  · have := agreeAbove_of_between hp1 hp2 (hagmn.2.symm.trans hagmx.2)
    rw [this, hagmn.2]

/-- If both corners of a box carry the same bit at position `j` and agree
above it, every member of the box carries that bit as well. -/
theorem box_member_bit {zmn zmx w j : Nat} {b : Bool}
    (hag : zmn / 2 ^ (j + 1) = zmx / 2 ^ (j + 1))
    (hbn : zmn.testBit j = b) (hbx : zmx.testBit j = b)
    (hw : inBox zmn zmx w) : w.testBit j = b := by
  rw [testBit_active] at hbn hbx ⊢
  rw [agree_acp_iff j] at hag
  rw [inBox_acp j] at hw
  obtain ⟨ha1, ha2, _, _⟩ := hw
  have hagw : activeCoord j w / 2 ^ (j / 2 + 1) = activeCoord j zmn / 2 ^ (j / 2 + 1) :=
    agreeAbove_of_between ha1 ha2 hag.1
  set p : Nat := 2 ^ (j / 2) with hp
  have hppos : 0 < p := Nat.pos_pow_of_pos _ (by norm_num)
  have h2p : (2:Nat) ^ (j / 2 + 1) = 2 * p := by
    rw [hp, Nat.pow_succ]
    ring
  rw [Nat.testBit_to_div_mod] at hbn hbx ⊢
  rw [h2p] at hagw hag
  set P : Nat := activeCoord j zmn / (2 * p) with hP
  have hqw : activeCoord j w / (2 * p) = P := hagw
  have hqx : activeCoord j zmx / (2 * p) = P := hag.1.symm
  cases b with
  | false =>
    have hbn' : activeCoord j zmn / p % 2 = 0 := by
      rcases Nat.mod_two_eq_zero_or_one (activeCoord j zmn / p) with h | h
      · exact h
      · rw [h] at hbn
        simp at hbn
    have hup : activeCoord j zmn <= 2 * p * P + (p - 1) :=
      half_false_upper hppos hP.symm hbn'
    have hbx' : activeCoord j zmx / p % 2 = 0 := by
      rcases Nat.mod_two_eq_zero_or_one (activeCoord j zmx / p) with h | h
      · exact h
      · rw [h] at hbx
        simp at hbx
    have hupx : activeCoord j zmx <= 2 * p * P + (p - 1) :=
      half_false_upper hppos hqx hbx'
    have : activeCoord j w / p % 2 = 0 :=
      half_bit_of_le hppos hqw (Nat.le_trans ha2 hupx)
    simp [this]
  | true =>
    have hbn' : activeCoord j zmn / p % 2 = 1 := by
      rcases Nat.mod_two_eq_zero_or_one (activeCoord j zmn / p) with h | h
      · rw [h] at hbn
        simp at hbn
      · exact h
    have hlo : 2 * p * P + p <= activeCoord j zmn :=
      half_true_lower hppos hP.symm hbn'
    have : activeCoord j w / p % 2 = 1 :=
      half_bit_of_ge hppos hqw (Nat.le_trans hlo ha1)
    simp [this]

theorem and_two_pow_eq_zero_of {z j : Nat} (h : z.testBit j = false) : z &&& 2 ^ j = 0 :=
  (and_two_pow_eq_zero_iff z j).mpr h

theorem and_two_pow_ne_zero_of {z j : Nat} (h : z.testBit j = true) : z &&& 2 ^ j ≠ 0 := by
  rw [Ne, and_two_pow_eq_zero_iff, h]
  simp

theorem testBit_true_of_active {z j : Nat}
    (h : activeCoord j z / 2 ^ (j / 2) % 2 = 1) : z.testBit j = true := by
  rw [testBit_active, Nat.testBit_to_div_mod, h]
  simp

theorem testBit_false_of_active {z j : Nat}
    (h : activeCoord j z / 2 ^ (j / 2) % 2 = 0) : z.testBit j = false := by
  rw [testBit_active, Nat.testBit_to_div_mod, h]
  simp

theorem active_mod_of_testBit_true {z j : Nat} (h : z.testBit j = true) :
    activeCoord j z / 2 ^ (j / 2) % 2 = 1 := by
  rw [testBit_active, Nat.testBit_to_div_mod] at h
  exact of_decide_eq_true h

theorem active_mod_of_testBit_false {z j : Nat} (h : z.testBit j = false) :
    activeCoord j z / 2 ^ (j / 2) % 2 = 0 := by
  rw [testBit_active, Nat.testBit_to_div_mod] at h
  have := of_decide_eq_false h
  omega

theorem pow_halfsucc (j : Nat) : (2:Nat) ^ (j / 2 + 1) = 2 * 2 ^ (j / 2) := by
  rw [Nat.pow_succ]
  ring

theorem active_quot_eq {z w j : Nat} (h : z / 2 ^ (j + 1) = w / 2 ^ (j + 1)) :
    activeCoord j z / (2 * 2 ^ (j / 2)) = activeCoord j w / (2 * 2 ^ (j / 2)) := by
  have h1 := ((agree_acp_iff j).mp h).1
  rwa [pow_halfsucc] at h1

/-- The Tropf–Herzog loop invariant for `bigminGo`.

At fuel level `f` the loop is about to examine bit `f - 1`; the bits of
`zval`, the current `zmin` and the current `zmax` above that position
agree, the current box is valid and, when `rec` is set, the saved
candidate `bm` is above `zval` and above everything in the current box.
The loop then returns the least element of the current box above `zval`,
together with the saved candidate. -/
theorem bigminGo_isLeast (zval : Nat) :
    ∀ (f : Nat) (rec : Bool) (bm zmn zmx lm lo mk : Nat),
    f <= 64 →
    (1 <= f → lm = lmF f ∧ lo = loF f ∧ mk = 2 ^ (f - 1)) →
    zmn < 2 ^ 64 → zmx < 2 ^ 64 →
    evenBits zmn <= evenBits zmx → oddBits zmn <= oddBits zmx →
    zval / 2 ^ f = zmn / 2 ^ f → zval / 2 ^ f = zmx / 2 ^ f →
    (rec = true → zval < bm ∧ ∀ z, inBox zmn zmx z → z < bm) →
    (rec = false → zval < zmx) →
    IsLeast {z | (inBox zmn zmx z ∧ zval < z) ∨ (rec = true ∧ z = bm)}
      (bigminGo zval f bm zmn zmx lm lo mk) := by
  intro f
  induction f with
  | zero =>
    intro rec bm zmn zmx lm lo mk _hf _hmask _hzmn _hzmx hbE hbO hagmn hagmx hrecT hrecF
    rw [Nat.pow_zero, Nat.div_one, Nat.div_one] at hagmn hagmx
    subst hagmn
    subst hagmx
    have e : bigminGo zval 0 bm zval zval lm lo mk = bm := rfl
    rw [e]
    cases rec with
    | false => exact absurd (hrecF rfl) (Nat.lt_irrefl _)
    | true =>
      obtain ⟨hbm, _⟩ := hrecT rfl
      constructor
      · exact Or.inr ⟨rfl, rfl⟩
      · intro w hw
        rcases hw with ⟨hwbox, hwlt⟩ | ⟨_, rfl⟩
        · obtain ⟨h1, h2, h3, h4⟩ := hwbox
          have : w = zval :=
            eq_of_evenBits_oddBits (Nat.le_antisymm h2 h1) (Nat.le_antisymm h4 h3)
          omega
        · exact Nat.le_refl _
  | succ j ih =>
    intro rec bm zmn zmx lm lo mk hf hmask hzmn hzmx hbE hbO hagmn hagmx hrecT hrecF
    obtain ⟨hlm, hlo, hmk⟩ := hmask (by omega)
    subst hlm
    subst hlo
    subst hmk
    rw [Nat.add_sub_cancel]
    have hj63 : j <= 63 := by omega
    have hmk0 : ¬((2:Nat) ^ j = 0) := by
      have := Nat.pos_pow_of_pos j (show 0 < 2 by norm_num)
      omega
    rw [bigminGo, if_neg hmk0]
    have hle_mn_mx : zmn <= zmx := le_of_coords hbE hbO
    -- the IH's fuel-level side conditions for one more step
    have hmask' : 1 <= j → lmF (j + 1) >>> 1 ||| 0x8000000000000000 = lmF j ∧
        loF (j + 1) >>> 1 = loF j ∧ 2 ^ j >>> 1 = 2 ^ (j - 1) := by
      intro hj1
      obtain ⟨i, rfl⟩ : ∃ i, j = i + 1 := ⟨j - 1, by omega⟩
      refine ⟨lmF_step i (by omega), loF_step i, ?_⟩
      rw [shiftRight_one, Nat.add_sub_cancel, Nat.pow_succ]
      omega
    cases hbv : zval.testBit j <;> cases hbn : zmn.testBit j <;> cases hbx : zmx.testBit j
    · -- (0,0,0): pass
      rw [if_neg (fun h => h.2.1 (and_two_pow_eq_zero_of hbn)),
          if_neg (fun h => h.1 (and_two_pow_eq_zero_of hbv)),
          if_neg (fun h => h.2.2 (and_two_pow_eq_zero_of hbx)),
          if_neg (fun h => h.1 (and_two_pow_eq_zero_of hbv))]
      exact ih rec bm zmn zmx _ _ _ (by omega)
        (fun h1 => ⟨(hmask' h1).1, (hmask' h1).2.1, (hmask' h1).2.2⟩)
        hzmn hzmx hbE hbO
        (agree_step hagmn (by rw [hbv, hbn]))
        (agree_step hagmx (by rw [hbv, hbx]))
        hrecT hrecF
    · -- (0,0,1): save candidate, clamp zmax (U-max)
      rw [if_neg (fun h => h.2.1 (and_two_pow_eq_zero_of hbn)),
          if_neg (fun h => h.1 (and_two_pow_eq_zero_of hbv)),
          if_pos ⟨and_two_pow_eq_zero_of hbv, and_two_pow_eq_zero_of hbn,
                  and_two_pow_ne_zero_of hbx⟩]
      have hppos : (0:Nat) < 2 ^ (j / 2) := Nat.pos_pow_of_pos _ (by norm_num)
      obtain ⟨hbmA, hbmP, _, _⟩ := update_coords (z := zmn) hj63 hzmn
      obtain ⟨_, _, hmxA, hmxP⟩ := update_coords (z := zmx) hj63 hzmx
      have hQx : activeCoord j zmx / (2 * 2 ^ (j / 2))
          = activeCoord j zmn / (2 * 2 ^ (j / 2)) :=
        active_quot_eq (hagmx.symm.trans hagmn)
      have hbn' : activeCoord j zmn / 2 ^ (j / 2) % 2 = 0 := active_mod_of_testBit_false hbn
      have hbx' : activeCoord j zmx / 2 ^ (j / 2) % 2 = 1 := active_mod_of_testBit_true hbx
      have hupn : activeCoord j zmn <=
          2 * 2 ^ (j / 2) * (activeCoord j zmn / (2 * 2 ^ (j / 2))) + (2 ^ (j / 2) - 1) :=
        half_false_upper hppos rfl hbn'
      have hlox : 2 * 2 ^ (j / 2) * (activeCoord j zmn / (2 * 2 ^ (j / 2))) + 2 ^ (j / 2)
          <= activeCoord j zmx := half_true_lower hppos hQx hbx'
      have hbmA' : activeCoord j ((zmn &&& lmF (j + 1)) ||| 2 ^ j)
          = 2 * 2 ^ (j / 2) * (activeCoord j zmn / (2 * 2 ^ (j / 2))) + 2 ^ (j / 2) := by
        rw [hbmA, pow_halfsucc]
        ring
      have hmxA' : activeCoord j ((zmx &&& lmF (j + 1)) ||| loF (j + 1))
          = 2 * 2 ^ (j / 2) * (activeCoord j zmn / (2 * 2 ^ (j / 2))) + (2 ^ (j / 2) - 1) := by
        rw [hmxA, pow_halfsucc, hQx]
        ring
      have hbm_bit : ((zmn &&& lmF (j + 1)) ||| 2 ^ j).testBit j = true := by
        apply testBit_true_of_active
        rw [hbmA']
        exact (form_true_facts hppos).2
      have hmx_bit : ((zmx &&& lmF (j + 1)) ||| loF (j + 1)).testBit j = false := by
        apply testBit_false_of_active
        rw [hmxA']
        exact (form_false_facts hppos).2
      have hx_self : inBox zmn zmx zmx := ⟨hbE, Nat.le_refl _, hbO, Nat.le_refl _⟩
      have hacp_mm := (inBox_acp j).mp hx_self
      have hbox_bm : inBox zmn zmx ((zmn &&& lmF (j + 1)) ||| 2 ^ j) := by
        rw [inBox_acp j]
        refine ⟨by rw [hbmA']; omega, by rw [hbmA']; omega,
                by rw [hbmP], by rw [hbmP]; exact hacp_mm.2.2.1⟩
      have hbox_mx' : inBox zmn zmx ((zmx &&& lmF (j + 1)) ||| loF (j + 1)) := by
        rw [inBox_acp j]
        refine ⟨by rw [hmxA']; omega, by rw [hmxA']; omega,
                by rw [hmxP]; exact hacp_mm.2.2.1, by rw [hmxP]⟩
      have hagbm : zval / 2 ^ (j + 1) = ((zmn &&& lmF (j + 1)) ||| 2 ^ j) / 2 ^ (j + 1) :=
        box_member_agree hagmn hagmx hbox_bm
      have hagmx' : zval / 2 ^ (j + 1)
          = ((zmx &&& lmF (j + 1)) ||| loF (j + 1)) / 2 ^ (j + 1) :=
        box_member_agree hagmn hagmx hbox_mx'
      have hltbm : zval < (zmn &&& lmF (j + 1)) ||| 2 ^ j :=
        lt_of_agreeAbove hagbm hbv hbm_bit
      have hallbm : ∀ z, inBox zmn ((zmx &&& lmF (j + 1)) ||| loF (j + 1)) z →
          z < (zmn &&& lmF (j + 1)) ||| 2 ^ j := by
        intro z hz
        have hz_ag := box_member_agree hagmn hagmx' hz
        have hz_bit : z.testBit j = false :=
          box_member_bit (hagmn.symm.trans hagmx') hbn hmx_bit hz
        exact lt_of_agreeAbove (hz_ag.symm.trans hagbm) hz_bit hbm_bit
      have hszmx' : (zmx &&& lmF (j + 1)) ||| loF (j + 1) < 2 ^ 64 := by
        apply lt_two_pow_of_acp j
        · rw [hmxA']
          have := active_lt_two_pow j hzmx
          omega
        · rw [hmxP]
          exact passive_lt_two_pow j hzmx
      have hmx'_self : inBox zmn ((zmx &&& lmF (j + 1)) ||| loF (j + 1))
          ((zmx &&& lmF (j + 1)) ||| loF (j + 1)) := by
        rw [inBox_acp j]
        refine ⟨by rw [hmxA']; omega, Nat.le_refl _,
                by rw [hmxP]; exact hacp_mm.2.2.1, Nat.le_refl _⟩
      have hres := ih true ((zmn &&& lmF (j + 1)) ||| 2 ^ j) zmn
          ((zmx &&& lmF (j + 1)) ||| loF (j + 1))
          (lmF (j + 1) >>> 1 ||| 0x8000000000000000) (loF (j + 1) >>> 1) (2 ^ j >>> 1)
          (by omega) hmask' hzmn hszmx' hmx'_self.1 hmx'_self.2.2.1
          (agree_step hagmn (by rw [hbv, hbn]))
          (agree_step hagmx' (by rw [hbv, hmx_bit]))
          (fun _ => ⟨hltbm, hallbm⟩)
          (fun h => Bool.noConfusion h)
      obtain ⟨hrmem, hrlb⟩ := hres
      have hsub : ∀ z, inBox zmn ((zmx &&& lmF (j + 1)) ||| loF (j + 1)) z →
          inBox zmn zmx z := by
        intro z hz
        rw [inBox_acp j] at hz ⊢
        obtain ⟨h1, h2, h3, h4⟩ := hz
        rw [hmxA'] at h2
        rw [hmxP] at h4
        exact ⟨h1, by omega, h3, h4⟩
      constructor
      · rcases hrmem with ⟨hrbox, hrlt⟩ | ⟨_, hreq⟩
        · exact Or.inl ⟨hsub _ hrbox, hrlt⟩
        · rw [Set.mem_setOf_eq, hreq]
          exact Or.inl ⟨hbox_bm, hltbm⟩
      · intro w hw
        rcases hw with ⟨hwbox, hwlt⟩ | ⟨hr, hweq⟩
        · have hw_ag := box_member_agree hagmn hagmx hwbox
          have hwacp := (inBox_acp j).mp hwbox
          have hwq : activeCoord j w / (2 * 2 ^ (j / 2))
              = activeCoord j zmn / (2 * 2 ^ (j / 2)) :=
            (active_quot_eq hw_ag).symm.trans (active_quot_eq hagmn)
          cases hwb : w.testBit j with
          | false =>
            apply hrlb
            left
            refine ⟨?_, hwlt⟩
            rw [inBox_acp j]
            have hwup : activeCoord j w <=
                2 * 2 ^ (j / 2) * (activeCoord j zmn / (2 * 2 ^ (j / 2))) + (2 ^ (j / 2) - 1) :=
              half_false_upper hppos hwq (active_mod_of_testBit_false hwb)
            exact ⟨hwacp.1, by rw [hmxA']; omega, hwacp.2.2.1,
                   by rw [hmxP]; exact hwacp.2.2.2⟩
          | true =>
            have hwlo : 2 * 2 ^ (j / 2) * (activeCoord j zmn / (2 * 2 ^ (j / 2))) + 2 ^ (j / 2)
                <= activeCoord j w := half_true_lower hppos hwq (active_mod_of_testBit_true hwb)
            have h2 : ((zmn &&& lmF (j + 1)) ||| 2 ^ j) <= w :=
              le_of_acp j (by rw [hbmA']; omega) (by rw [hbmP]; exact hwacp.2.2.1)
            exact Nat.le_trans (hrlb (Or.inr ⟨rfl, rfl⟩)) h2
        · rw [hweq]
          have h2 : ((zmn &&& lmF (j + 1)) ||| 2 ^ j) < bm := (hrecT hr).2 _ hbox_bm
          exact Nat.le_trans (hrlb (Or.inr ⟨rfl, rfl⟩)) (Nat.le_of_lt h2)
    · -- (0,1,0): impossible (corners flipped)
      exfalso
      have hgt : zmx < zmn :=
        lt_of_agreeAbove (hagmx.symm.trans hagmn) hbx hbn
      omega
    · -- (0,1,1): return the current zmin
      rw [if_pos ⟨and_two_pow_eq_zero_of hbv, and_two_pow_ne_zero_of hbn,
                  and_two_pow_ne_zero_of hbx⟩]
      have hlt : zval < zmn := lt_of_agreeAbove hagmn hbv hbn
      have hself : inBox zmn zmx zmn := ⟨Nat.le_refl _, hbE, Nat.le_refl _, hbO⟩
      constructor
      · exact Or.inl ⟨hself, hlt⟩
      · intro w hw
        rcases hw with ⟨hwbox, _⟩ | ⟨hrec, rfl⟩
        · exact le_of_coords hwbox.1 hwbox.2.2.1
        · exact Nat.le_of_lt ((hrecT hrec).2 zmn hself)
    · -- (1,0,0): return the saved candidate
      rw [if_neg (fun h => and_two_pow_ne_zero_of hbv h.1),
          if_pos ⟨and_two_pow_ne_zero_of hbv, and_two_pow_eq_zero_of hbn,
                  and_two_pow_eq_zero_of hbx⟩]
      cases rec with
      | false =>
        exfalso
        have : zmx < zval := lt_of_agreeAbove hagmx.symm hbx hbv
        have := hrecF rfl
        omega
      | true =>
        obtain ⟨hbm, hbmall⟩ := hrecT rfl
        constructor
        · exact Or.inr ⟨rfl, rfl⟩
        · intro w hw
          rcases hw with ⟨hwbox, hwlt⟩ | ⟨_, rfl⟩
          · exfalso
            have hwag := box_member_agree hagmn hagmx hwbox
            have hwbit : w.testBit j = false :=
              box_member_bit (hagmn.symm.trans hagmx) hbn hbx hwbox
            have : w < zval := lt_of_agreeAbove hwag.symm hwbit hbv
            omega
          · exact Nat.le_refl _
    · -- (1,0,1): raise zmin (U-min)
      rw [if_neg (fun h => and_two_pow_ne_zero_of hbv h.1),
          if_neg (fun h => and_two_pow_ne_zero_of hbx h.2.2),
          if_neg (fun h => and_two_pow_ne_zero_of hbv h.1),
          if_pos ⟨and_two_pow_ne_zero_of hbv, and_two_pow_eq_zero_of hbn,
                  and_two_pow_ne_zero_of hbx⟩]
      have hppos : (0:Nat) < 2 ^ (j / 2) := Nat.pos_pow_of_pos _ (by norm_num)
      obtain ⟨hmnA, hmnP, _, _⟩ := update_coords (z := zmn) hj63 hzmn
      have hQx : activeCoord j zmx / (2 * 2 ^ (j / 2))
          = activeCoord j zmn / (2 * 2 ^ (j / 2)) :=
        active_quot_eq (hagmx.symm.trans hagmn)
      have hbn' : activeCoord j zmn / 2 ^ (j / 2) % 2 = 0 := active_mod_of_testBit_false hbn
      have hbx' : activeCoord j zmx / 2 ^ (j / 2) % 2 = 1 := active_mod_of_testBit_true hbx
      have hupn : activeCoord j zmn <=
          2 * 2 ^ (j / 2) * (activeCoord j zmn / (2 * 2 ^ (j / 2))) + (2 ^ (j / 2) - 1) :=
        half_false_upper hppos rfl hbn'
      have hlox : 2 * 2 ^ (j / 2) * (activeCoord j zmn / (2 * 2 ^ (j / 2))) + 2 ^ (j / 2)
          <= activeCoord j zmx := half_true_lower hppos hQx hbx'
      have hmnA' : activeCoord j ((zmn &&& lmF (j + 1)) ||| 2 ^ j)
          = 2 * 2 ^ (j / 2) * (activeCoord j zmn / (2 * 2 ^ (j / 2))) + 2 ^ (j / 2) := by
        rw [hmnA, pow_halfsucc]
        ring
      have hmn_bit : ((zmn &&& lmF (j + 1)) ||| 2 ^ j).testBit j = true := by
        apply testBit_true_of_active
        rw [hmnA']
        exact (form_true_facts hppos).2
      have hx_self : inBox zmn zmx zmx := ⟨hbE, Nat.le_refl _, hbO, Nat.le_refl _⟩
      have hacp_mm := (inBox_acp j).mp hx_self
      have hbox_mn' : inBox zmn zmx ((zmn &&& lmF (j + 1)) ||| 2 ^ j) := by
        rw [inBox_acp j]
        refine ⟨by rw [hmnA']; omega, by rw [hmnA']; omega,
                by rw [hmnP], by rw [hmnP]; exact hacp_mm.2.2.1⟩
      have hagmn' : zval / 2 ^ (j + 1) = ((zmn &&& lmF (j + 1)) ||| 2 ^ j) / 2 ^ (j + 1) :=
        box_member_agree hagmn hagmx hbox_mn'
      have hszmn' : (zmn &&& lmF (j + 1)) ||| 2 ^ j < 2 ^ 64 := by
        apply lt_two_pow_of_acp j
        · rw [hmnA']
          have := active_lt_two_pow j hzmx
          omega
        · rw [hmnP]
          exact passive_lt_two_pow j hzmn
      have hnew_valid : inBox ((zmn &&& lmF (j + 1)) ||| 2 ^ j) zmx zmx := by
        rw [inBox_acp j]
        refine ⟨by rw [hmnA']; omega, Nat.le_refl _,
                by rw [hmnP]; exact hacp_mm.2.2.1, Nat.le_refl _⟩
      have hsub : ∀ z, inBox ((zmn &&& lmF (j + 1)) ||| 2 ^ j) zmx z → inBox zmn zmx z := by
        intro z hz
        rw [inBox_acp j] at hz ⊢
        obtain ⟨h1, h2, h3, h4⟩ := hz
        rw [hmnA'] at h1
        rw [hmnP] at h3
        exact ⟨by omega, h2, h3, h4⟩
      have hrecT2 : rec = true → zval < bm ∧
          (∀ z, inBox ((zmn &&& lmF (j + 1)) ||| 2 ^ j) zmx z → z < bm) := by
        intro hr
        obtain ⟨ha, hb⟩ := hrecT hr
        exact ⟨ha, fun z hz => hb z (hsub z hz)⟩
      have hres := ih rec bm ((zmn &&& lmF (j + 1)) ||| 2 ^ j) zmx
          (lmF (j + 1) >>> 1 ||| 0x8000000000000000) (loF (j + 1) >>> 1) (2 ^ j >>> 1)
          (by omega) hmask' hszmn' hzmx hnew_valid.1 hnew_valid.2.2.1
          (agree_step hagmn' (by rw [hbv, hmn_bit]))
          (agree_step hagmx (by rw [hbv, hbx]))
          hrecT2 hrecF
      obtain ⟨hrmem, hrlb⟩ := hres
      constructor
      · rcases hrmem with ⟨hrbox, hrlt⟩ | hrr
        · exact Or.inl ⟨hsub _ hrbox, hrlt⟩
        · exact Or.inr hrr
      · intro w hw
        rcases hw with ⟨hwbox, hwlt⟩ | hww
        · have hw_ag := box_member_agree hagmn hagmx hwbox
          have hwacp := (inBox_acp j).mp hwbox
          cases hwb : w.testBit j with
          | false =>
            exfalso
            have : w < zval := lt_of_agreeAbove hw_ag.symm hwb hbv
            omega
          | true =>
            apply hrlb
            left
            refine ⟨?_, hwlt⟩
            rw [inBox_acp j]
            have hwq : activeCoord j w / (2 * 2 ^ (j / 2))
                = activeCoord j zmn / (2 * 2 ^ (j / 2)) :=
              (active_quot_eq hw_ag).symm.trans (active_quot_eq hagmn)
            have hwlo : 2 * 2 ^ (j / 2) * (activeCoord j zmn / (2 * 2 ^ (j / 2))) + 2 ^ (j / 2)
                <= activeCoord j w := half_true_lower hppos hwq (active_mod_of_testBit_true hwb)
            exact ⟨by rw [hmnA']; omega, hwacp.2.1,
                   by rw [hmnP]; exact hwacp.2.2.1, hwacp.2.2.2⟩
        · exact hrlb (Or.inr hww)
    · -- (1,1,0): impossible (corners flipped)
      exfalso
      have hgt : zmx < zmn :=
        lt_of_agreeAbove (hagmx.symm.trans hagmn) hbx hbn
      omega
    · -- (1,1,1): pass
      rw [if_neg (fun h => and_two_pow_ne_zero_of hbv h.1),
          if_neg (fun h => and_two_pow_ne_zero_of hbn h.2.1),
          if_neg (fun h => and_two_pow_ne_zero_of hbv h.1),
          if_neg (fun h => and_two_pow_ne_zero_of hbn h.2.1)]
      exact ih rec bm zmn zmx _ _ _ (by omega)
        (fun h1 => ⟨(hmask' h1).1, (hmask' h1).2.1, (hmask' h1).2.2⟩)
        hzmn hzmx hbE hbO
        (agree_step hagmn (by rw [hbv, hbn]))
        (agree_step hagmx (by rw [hbv, hbx]))
        hrecT hrecF

/-- Top-level BIGMIN correctness: for a valid box whose top corner fits in
64 bits and `zmin <= zval < zmax`, `bigmin zval zmin zmax` is the least
key strictly above `zval` that lies in the box. -/
theorem bigmin_isLeast {zval zmin zmax : Nat} (hzmax : zmax < 2 ^ 64)
    (hbE : evenBits zmin <= evenBits zmax) (hbO : oddBits zmin <= oddBits zmax)
    (hlo : zmin <= zval) (hhi : zval < zmax) :
    IsLeast {z | inBox zmin zmax z ∧ zval < z} (bigmin zval zmin zmax) := by
  have hzmin : zmin < 2 ^ 64 := by omega
  have hzval : zval < 2 ^ 64 := by omega
  have h := bigminGo_isLeast zval 64 false zmin zmin zmax
      0x5555555555555555 0x2aaaaaaaaaaaaaaa 0x8000000000000000
      (by norm_num)
      (fun _ => ⟨lmF_64.symm, loF_64.symm, by norm_num⟩)
      hzmin hzmax hbE hbO
      (by rw [Nat.div_eq_of_lt hzval, Nat.div_eq_of_lt hzmin])
      (by rw [Nat.div_eq_of_lt hzval, Nat.div_eq_of_lt hzmax])
      (fun hc => Bool.noConfusion hc)
      (fun _ => hhi)
  have hset : {z | inBox zmin zmax z ∧ zval < z}
      = {z | (inBox zmin zmax z ∧ zval < z) ∨ (false = true ∧ z = zmin)} := by
    ext z
    simp
  rw [bigmin, hset]
  exact h

/-- The box with Z-order corners `zencode64 xmin ymin` and
`zencode64 xmax ymax` consists exactly of the keys of the points of the
closed coordinate rectangle. -/
theorem inBox_zencode_iff {xmin ymin xmax ymax z : Nat}
    (hxmin : xmin < 2 ^ 32) (hymin : ymin < 2 ^ 32)
    (hxmax : xmax < 2 ^ 32) (hymax : ymax < 2 ^ 32) :
    inBox (zencode64 xmin ymin) (zencode64 xmax ymax) z ↔
      ∃ x y, x < 2 ^ 32 ∧ y < 2 ^ 32 ∧ xmin <= x ∧ x <= xmax ∧ ymin <= y ∧ y <= ymax ∧
        z = zencode64 x y := by
  constructor
  · intro h
    obtain ⟨h1, h2, h3, h4⟩ := h
    rw [evenBits_zencode64, Nat.mod_eq_of_lt hxmin] at h1
    rw [evenBits_zencode64, Nat.mod_eq_of_lt hxmax] at h2
    rw [oddBits_zencode64, Nat.mod_eq_of_lt hymin] at h3
    rw [oddBits_zencode64, Nat.mod_eq_of_lt hymax] at h4
    refine ⟨evenBits z, oddBits z, by omega, by omega, h1, h2, h3, h4, ?_⟩
    rw [zencode64_eq, Nat.mod_eq_of_lt (by omega), Nat.mod_eq_of_lt (by omega),
        interleave_evenBits_oddBits]
  · rintro ⟨x, y, hx, hy, h1, h2, h3, h4, rfl⟩
    refine ⟨?_, ?_, ?_, ?_⟩
    · rw [evenBits_zencode64, evenBits_zencode64, Nat.mod_eq_of_lt hxmin,
          Nat.mod_eq_of_lt hx]
      exact h1
    · rw [evenBits_zencode64, evenBits_zencode64, Nat.mod_eq_of_lt hxmax,
          Nat.mod_eq_of_lt hx]
      exact h2
    · rw [oddBits_zencode64, oddBits_zencode64, Nat.mod_eq_of_lt hymin,
          Nat.mod_eq_of_lt hy]
      exact h3
    · rw [oddBits_zencode64, oddBits_zencode64, Nat.mod_eq_of_lt hymax,
          Nat.mod_eq_of_lt hy]
      exact h4

theorem bigmin_least_in_box_rect {xmin ymin xmax ymax zval : Nat}
    (hxmax : xmax < 2 ^ 32) (hymax : ymax < 2 ^ 32)
    (hxx : xmin <= xmax) (hyy : ymin <= ymax)
    (hlo : zencode64 xmin ymin <= zval) (hhi : zval < zencode64 xmax ymax) :
    IsLeast {z | (∃ x y, x < 2 ^ 32 ∧ y < 2 ^ 32 ∧ xmin <= x ∧ x <= xmax ∧
        ymin <= y ∧ y <= ymax ∧ z = zencode64 x y) ∧ zval < z}
      (bigmin zval (zencode64 xmin ymin) (zencode64 xmax ymax)) := by
  have hxmin : xmin < 2 ^ 32 := Nat.lt_of_le_of_lt hxx hxmax
  have hymin : ymin < 2 ^ 32 := Nat.lt_of_le_of_lt hyy hymax
  have hbE : evenBits (zencode64 xmin ymin) <= evenBits (zencode64 xmax ymax) := by
    rw [evenBits_zencode64, evenBits_zencode64, Nat.mod_eq_of_lt hxmin,
        Nat.mod_eq_of_lt hxmax]
    exact hxx
  have hbO : oddBits (zencode64 xmin ymin) <= oddBits (zencode64 xmax ymax) := by
    rw [oddBits_zencode64, oddBits_zencode64, Nat.mod_eq_of_lt hymin,
        Nat.mod_eq_of_lt hymax]
    exact hyy
  have h := bigmin_isLeast (zencode64_lt xmax ymax) hbE hbO hlo hhi
  have hset : {z | inBox (zencode64 xmin ymin) (zencode64 xmax ymax) z ∧ zval < z}
      = {z | (∃ x y, x < 2 ^ 32 ∧ y < 2 ^ 32 ∧ xmin <= x ∧ x <= xmax ∧
          ymin <= y ∧ y <= ymax ∧ z = zencode64 x y) ∧ zval < z} := by
    ext z
    rw [Set.mem_setOf_eq, Set.mem_setOf_eq, inBox_zencode_iff hxmin hymin hxmax hymax]
  rw [← hset]
  exact h

/-- **C2.** For a rectangle with `xmin <= xmax`, `ymin <= ymax` (coordinates
in `[0, 2^32-1]`), `zmin = zencode64 xmin ymin`, `zmax = zencode64 xmax ymax`
and any `zval` with `zmin <= zval < zmax`, `bigmin zval zmin zmax` is the
smallest key strictly greater than `zval` that is the Z-order encoding of a
point lying inside the rectangle. -/
theorem bigmin_least_key_in_rect {xmin ymin xmax ymax zval : Nat}
    (hxmax : xmax < 2 ^ 32) (hymax : ymax < 2 ^ 32)
    (hxx : xmin <= xmax) (hyy : ymin <= ymax)
    (hlo : zencode64 xmin ymin <= zval) (hhi : zval < zencode64 xmax ymax) :
    IsLeast {z | (∃ x y, x < 2 ^ 32 ∧ y < 2 ^ 32 ∧ xmin <= x ∧ x <= xmax ∧
        ymin <= y ∧ y <= ymax ∧ z = zencode64 x y) ∧ zval < z}
      (bigmin zval (zencode64 xmin ymin) (zencode64 xmax ymax)) :=
  bigmin_least_in_box_rect hxmax hymax hxx hyy hlo hhi

theorem bigmin_least_key_in_rect_witness :
    IsLeast {z | (∃ x y, x < 2 ^ 32 ∧ y < 2 ^ 32 ∧ 0 <= x ∧ x <= 1 ∧
        0 <= y ∧ y <= 1 ∧ z = zencode64 x y) ∧ 0 < z}
      (bigmin 0 (zencode64 0 0) (zencode64 1 1)) :=
  bigmin_least_key_in_rect (by norm_num) (by norm_num) (by norm_num) (by norm_num)
    (by decide) (by decide)

/-! ## The range scan loop from the source -/

theorem rectFilter_iff {xs ys : List Nat} {xmin ymin xmax ymax i : Nat} :
    rectFilter xs ys xmin ymin xmax ymax i = true ↔
      (xmin <= xs.getD i 0 ∧ xs.getD i 0 <= xmax ∧
       ymin <= ys.getD i 0 ∧ ys.getD i 0 <= ymax) := by
  rw [rectFilter]
  simp only [Bool.and_eq_true, decide_eq_true_eq]
  tauto

theorem scanGo_correct (ids xs ys zs : List Nat) (xmin ymin xmax ymax : Nat)
    (Hz : ∀ i, i < zs.length → zs.getD i 0 = zencode64 (xs.getD i 0) (ys.getD i 0))
    (Hc : ∀ i, i < zs.length → xs.getD i 0 < 2 ^ 32 ∧ ys.getD i 0 < 2 ^ 32)
    (Hs : SortedNat zs)
    (hxmax : xmax < 2 ^ 32) (hymax : ymax < 2 ^ 32)
    (hxx : xmin <= xmax) (hyy : ymin <= ymax)
    (it0 last0 : Nat)
    (hl0n : last0 <= zs.length)
    (F_lo : ∀ i, it0 <= i → i < zs.length → zencode64 xmin ymin <= zs.getD i 0)
    (F_in : ∀ i, it0 <= i → i < last0 → zs.getD i 0 <= zencode64 xmax ymax) :
    ∀ fuel it acc, it0 <= it → it <= last0 → last0 <= fuel + it →
    scanGo ids xs ys zs xmin ymin xmax ymax (zencode64 xmin ymin) (zencode64 xmax ymax)
        fuel it last0 acc
      = some (acc ++ ((List.range' it (last0 - it)).filter
          (rectFilter xs ys xmin ymin xmax ymax)).map (fun i => ids.getD i 0)) := by
  intro fuel
  induction fuel with
  | zero =>
    intro it acc h0 h1 h2
    have he : it = last0 := by omega
    subst he
    rw [scanGo, if_pos rfl, Nat.sub_self]
    simp
  | succ fuel ih =>
    intro it acc h0 h1 h2
    by_cases he : it = last0
    · subst he
      rw [scanGo, if_pos rfl, Nat.sub_self]
      simp
    · have hitl : it < last0 := by omega
      rw [scanGo, if_neg he]
      have hrange : List.range' it (last0 - it)
          = it :: List.range' (it + 1) (last0 - (it + 1)) := by
        rw [show last0 - it = (last0 - (it + 1)) + 1 by omega]
        rw [List.range'_succ]
      by_cases hin : xmin <= xs.getD it 0 ∧ xs.getD it 0 <= xmax ∧
          ymin <= ys.getD it 0 ∧ ys.getD it 0 <= ymax
      · rw [if_pos hin, ih (it + 1) (acc ++ [ids.getD it 0]) (by omega) (by omega) (by omega)]
        rw [hrange]
        rw [List.filter_cons_of_pos (by rw [rectFilter_iff]; exact hin)]
        simp
      · rw [if_neg hin]
        set it' : Nat := bsearchlt zs it last0
          (bigmin (zs.getD it 0) (zencode64 xmin ymin) (zencode64 xmax ymax)) with hitdef
        -- the cursor is in a dead zone: BIGMIN jump
        have hitn : it < zs.length := by omega
        have hzit : zs.getD it 0 = zencode64 (xs.getD it 0) (ys.getD it 0) := Hz it hitn
        have hcit := Hc it hitn
        have hlo_it : zencode64 xmin ymin <= zs.getD it 0 := F_lo it h0 hitn
        have hup_it : zs.getD it 0 <= zencode64 xmax ymax := F_in it h0 hitl
        have hne : zs.getD it 0 ≠ zencode64 xmax ymax := by
          intro heq
          rw [hzit] at heq
          have := (zencode64_inj_iff hcit.1 hcit.2 hxmax hymax).mp heq
          exact hin ⟨by omega, by omega, by omega, by omega⟩
        have hstrict : zs.getD it 0 < zencode64 xmax ymax := by omega
        have hbig := bigmin_least_in_box_rect hxmax hymax hxx hyy hlo_it hstrict
        obtain ⟨⟨hbmem, hbgt⟩, hblb⟩ := hbig
        have hbs := bsearchlt_spec (a := zs) (f := it) (l := last0)
          (v := bigmin (zs.getD it 0) (zencode64 xmin ymin) (zencode64 xmax ymax))
          Hs (by omega) hl0n
        rw [← hitdef] at hbs
        obtain ⟨hb1, hb2, hb3, hb4⟩ := hbs
        -- the jump strictly advances the cursor
        have hadv : it < it' := by
          rcases Nat.lt_or_ge it it' with h | h
          · exact h
          · exfalso
            have := hb4 it (by omega) hitl
            omega
        -- everything skipped by the jump is outside the rectangle
        have hskip : ∀ i, it <= i → i < it' →
            rectFilter xs ys xmin ymin xmax ymax i = false := by
          intro i hi1 hi2
          by_contra hcon
          have hPi : rectFilter xs ys xmin ymin xmax ymax i = true := by
            revert hcon
            cases rectFilter xs ys xmin ymin xmax ymax i <;> simp
          rw [rectFilter_iff] at hPi
          have hiln : i < zs.length := by omega
          have hzi := Hz i hiln
          have hci := Hc i hiln
          have hgei : zs.getD it 0 <= zs.getD i 0 := Hs it i hi1 hiln
          have hnei : zs.getD it 0 ≠ zs.getD i 0 := by
            intro heq
            rw [hzit, hzi] at heq
            have := (zencode64_inj_iff hcit.1 hcit.2 hci.1 hci.2).mp heq
            exact hin ⟨by omega, by omega, by omega, by omega⟩
          have hmem : zs.getD i 0 ∈ {z | (∃ x y, x < 2 ^ 32 ∧ y < 2 ^ 32 ∧
              xmin <= x ∧ x <= xmax ∧ ymin <= y ∧ y <= ymax ∧ z = zencode64 x y) ∧
              zs.getD it 0 < z} :=
            ⟨⟨xs.getD i 0, ys.getD i 0, hci.1, hci.2, hPi.1, hPi.2.1,
              hPi.2.2.1, hPi.2.2.2, hzi⟩, by omega⟩
          have hlbz := hblb hmem
          have := hb3 i hi1 hi2
          omega
        rw [ih it' acc (by omega) hb2 (by omega)]
        congr 2
        have hd : it + 1 * (it' - it) = it' := by omega
        have happ := List.range'_append it (it' - it) (last0 - it') 1
        rw [hd] at happ
        rw [show (last0 - it') + (it' - it) = last0 - it by omega] at happ
        rw [← happ, List.filter_append]
        have hnil : (List.range' it (it' - it)).filter
            (rectFilter xs ys xmin ymin xmax ymax) = [] := by
          rw [List.filter_eq_nil_iff]
          intro a ha
          rw [List.mem_range'_1] at ha
          have := hskip a ha.1 (by omega)
          simp [this]
        rw [hnil, List.nil_append]

theorem rangeScan_eq (ids xs ys zs : List Nat) (xmin ymin xmax ymax : Nat)
    (Hz : ∀ i, i < zs.length → zs.getD i 0 = zencode64 (xs.getD i 0) (ys.getD i 0))
    (Hc : ∀ i, i < zs.length → xs.getD i 0 < 2 ^ 32 ∧ ys.getD i 0 < 2 ^ 32)
    (Hs : SortedNat zs)
    (hxmax : xmax < 2 ^ 32) (hymax : ymax < 2 ^ 32)
    (hxx : xmin <= xmax) (hyy : ymin <= ymax) :
    rangeScan ids xs ys zs xmin ymin xmax ymax
      = some (((List.range zs.length).filter (rectFilter xs ys xmin ymin xmax ymax)).map
          (fun i => ids.getD i 0)) := by
  obtain ⟨ha1, ha2, ha3, ha4⟩ := bsearchlt_spec (a := zs) (f := 0) (l := zs.length)
    (v := zencode64 xmin ymin) Hs (Nat.zero_le _) (Nat.le_refl _)
  obtain ⟨hb1, hb2, hb3, hb4⟩ := bsearchlte_spec (a := zs)
    (f := bsearchlt zs 0 zs.length (zencode64 xmin ymin)) (l := zs.length)
    (v := zencode64 xmax ymax) Hs ha2 (Nat.le_refl _)
  rw [rangeScan, scanGo_correct ids xs ys zs xmin ymin xmax ymax Hz Hc Hs hxmax hymax hxx hyy
      (bsearchlt zs 0 zs.length (zencode64 xmin ymin))
      (bsearchlte zs (bsearchlt zs 0 zs.length (zencode64 xmin ymin)) zs.length
        (zencode64 xmax ymax))
      hb2 ha4 hb3 _ _ [] (Nat.le_refl _) hb1 (by omega)]
  rw [List.nil_append]
  congr 2
  -- extend the scanned window [it0, last0) to the whole array
  rw [List.range_eq_range']
  have h1 : List.range' 0 zs.length
      = List.range' 0 (bsearchlt zs 0 zs.length (zencode64 xmin ymin))
        ++ List.range' (bsearchlt zs 0 zs.length (zencode64 xmin ymin))
          (zs.length - bsearchlt zs 0 zs.length (zencode64 xmin ymin)) := by
    have := List.range'_append 0 (bsearchlt zs 0 zs.length (zencode64 xmin ymin))
      (zs.length - bsearchlt zs 0 zs.length (zencode64 xmin ymin)) 1
    rw [Nat.zero_add, Nat.one_mul] at this
    rw [show zs.length - bsearchlt zs 0 zs.length (zencode64 xmin ymin)
        + bsearchlt zs 0 zs.length (zencode64 xmin ymin) = zs.length by omega] at this
    exact this.symm
  have h2 : List.range' (bsearchlt zs 0 zs.length (zencode64 xmin ymin))
      (zs.length - bsearchlt zs 0 zs.length (zencode64 xmin ymin))
      = List.range' (bsearchlt zs 0 zs.length (zencode64 xmin ymin))
          (bsearchlte zs (bsearchlt zs 0 zs.length (zencode64 xmin ymin)) zs.length
              (zencode64 xmax ymax)
            - bsearchlt zs 0 zs.length (zencode64 xmin ymin))
        ++ List.range' (bsearchlte zs (bsearchlt zs 0 zs.length (zencode64 xmin ymin))
              zs.length (zencode64 xmax ymax))
          (zs.length - bsearchlte zs (bsearchlt zs 0 zs.length (zencode64 xmin ymin))
              zs.length (zencode64 xmax ymax)) := by
    have := List.range'_append (bsearchlt zs 0 zs.length (zencode64 xmin ymin))
      (bsearchlte zs (bsearchlt zs 0 zs.length (zencode64 xmin ymin)) zs.length
          (zencode64 xmax ymax)
        - bsearchlt zs 0 zs.length (zencode64 xmin ymin))
      (zs.length - bsearchlte zs (bsearchlt zs 0 zs.length (zencode64 xmin ymin))
          zs.length (zencode64 xmax ymax)) 1
    rw [Nat.one_mul,
        show bsearchlt zs 0 zs.length (zencode64 xmin ymin)
          + (bsearchlte zs (bsearchlt zs 0 zs.length (zencode64 xmin ymin)) zs.length
              (zencode64 xmax ymax)
            - bsearchlt zs 0 zs.length (zencode64 xmin ymin))
          = bsearchlte zs (bsearchlt zs 0 zs.length (zencode64 xmin ymin)) zs.length
              (zencode64 xmax ymax) by omega,
        show zs.length - bsearchlte zs (bsearchlt zs 0 zs.length (zencode64 xmin ymin))
              zs.length (zencode64 xmax ymax)
          + (bsearchlte zs (bsearchlt zs 0 zs.length (zencode64 xmin ymin)) zs.length
              (zencode64 xmax ymax)
            - bsearchlt zs 0 zs.length (zencode64 xmin ymin))
          = zs.length - bsearchlt zs 0 zs.length (zencode64 xmin ymin) by omega] at this
    exact this.symm
  rw [h1, h2, List.filter_append, List.filter_append]
  have hlow : (List.range' 0 (bsearchlt zs 0 zs.length (zencode64 xmin ymin))).filter
      (rectFilter xs ys xmin ymin xmax ymax) = [] := by
    rw [List.filter_eq_nil_iff]
    intro a ha
    rw [List.mem_range'_1] at ha
    intro hPa
    rw [rectFilter_iff] at hPa
    have han : a < zs.length := by omega
    have := ha3 a (by omega) (by omega)
    rw [Hz a han] at this
    have hc := Hc a han
    have hge : zencode64 xmin ymin <= zencode64 (xs.getD a 0) (ys.getD a 0) :=
      zencode64_le_zencode64 hc.1 hc.2 hPa.1 hPa.2.2.1
    omega
  have hhigh : (List.range' (bsearchlte zs (bsearchlt zs 0 zs.length (zencode64 xmin ymin))
        zs.length (zencode64 xmax ymax))
      (zs.length - bsearchlte zs (bsearchlt zs 0 zs.length (zencode64 xmin ymin))
        zs.length (zencode64 xmax ymax))).filter
      (rectFilter xs ys xmin ymin xmax ymax) = [] := by
    rw [List.filter_eq_nil_iff]
    intro a ha
    rw [List.mem_range'_1] at ha
    intro hPa
    rw [rectFilter_iff] at hPa
    have han : a < zs.length := by omega
    have := hb4 a (by omega) (by omega)
    rw [Hz a han] at this
    have hc := Hc a han
    have hle : zencode64 (xs.getD a 0) (ys.getD a 0) <= zencode64 xmax ymax :=
      zencode64_le_zencode64 hxmax hymax hPa.2.1 hPa.2.2.2
    omega
  rw [hlow, hhigh, List.nil_append, List.append_nil]

/-- Termination of the scan: with the fuel the source's cursor argument
justifies (`last - it` iterations at most, since the cursor strictly
advances), the loop reaches `last` and produces a result. -/
theorem rangeScan_isSome (ids xs ys zs : List Nat) (xmin ymin xmax ymax : Nat)
    (Hz : ∀ i, i < zs.length → zs.getD i 0 = zencode64 (xs.getD i 0) (ys.getD i 0))
    (Hc : ∀ i, i < zs.length → xs.getD i 0 < 2 ^ 32 ∧ ys.getD i 0 < 2 ^ 32)
    (Hs : SortedNat zs)
    (hxmax : xmax < 2 ^ 32) (hymax : ymax < 2 ^ 32)
    (hxx : xmin <= xmax) (hyy : ymin <= ymax) :
    (rangeScan ids xs ys zs xmin ymin xmax ymax).isSome = true := by
  rw [rangeScan_eq ids xs ys zs xmin ymin xmax ymax Hz Hc Hs hxmax hymax hxx hyy]
  rfl

theorem fitsUintN_iff {bits : Nat} {v : ℚ} :
    fitsUintN bits v = true ↔ v.den = 1 ∧ 0 <= v.num ∧ v.num < 2 ^ bits := by
  rw [fitsUintN]
  simp only [Bool.and_eq_true, beq_iff_eq, decide_eq_true_eq]
  tauto

theorem qToNat_cast {v : ℚ} (h : fitsUintN 32 v = true) : ((qToNat v : ℕ) : ℚ) = v := by
  rw [fitsUintN_iff] at h
  have h1 := Rat.num_div_den v
  rw [h.1] at h1
  rw [Nat.cast_one, div_one] at h1
  rw [qToNat, ← Int.cast_natCast (R := ℚ), Int.toNat_of_nonneg h.2.1]
  exact h1

theorem qToNat_lt {v : ℚ} (h : fitsUintN 32 v = true) : qToNat v < 2 ^ 32 := by
  rw [fitsUintN_iff] at h
  rw [qToNat]
  omega

theorem qToNat_le_qToNat {a b : ℚ} (ha : fitsUintN 32 a = true)
    (hb : fitsUintN 32 b = true) (h : a <= b) : qToNat a <= qToNat b := by
  rw [← Nat.cast_le (α := ℚ), qToNat_cast ha, qToNat_cast hb]
  exact h

theorem qToNat_le_iff {a b : ℚ} (ha : fitsUintN 32 a = true)
    (hb : fitsUintN 32 b = true) : qToNat a <= qToNat b ↔ a <= b := by
  rw [← Nat.cast_le (α := ℚ), qToNat_cast ha, qToNat_cast hb]

theorem getD_map_lt {α β : Type} (f : α → β) (l : List α) {i : Nat}
    (h : i < l.length) (d : α) (d' : β) :
    (l.map f).getD i d' = f (l.getD i d) := by
  rw [List.getD_eq_getElem _ _ (by simpa using h), List.getD_eq_getElem _ _ h,
    List.getElem_map]

theorem map_getD_range {α : Type} (l : List α) (d : α) :
    (List.range l.length).map (fun i => l.getD i d) = l := by
  refine List.ext_getElem (by simp) ?_
  intro i h1 h2
  simp only [List.getElem_map, List.getElem_range]
  exact List.getD_eq_getElem l d h2

theorem insertZ_perm (v : Nat × Nat) (l : List (Nat × Nat)) :
    (insertZ v l).Perm (v :: l) := by
  induction l with
  | nil => exact List.Perm.refl _
  | cons w rest ih =>
    rw [insertZ]
    by_cases h : w.2 < v.2
    · rw [if_pos h]
      exact (List.Perm.cons w ih).trans (List.Perm.swap v w rest)
    · rw [if_neg h]

theorem sortZ_perm (l : List (Nat × Nat)) : (sortZ l).Perm l := by
  induction l with
  | nil => exact List.Perm.refl _
  | cons v rest ih => exact (insertZ_perm v (sortZ rest)).trans (List.Perm.cons v ih)

theorem insertZ_pairwise {v : Nat × Nat} {l : List (Nat × Nat)}
    (h : l.Pairwise (fun a b => a.2 <= b.2)) :
    (insertZ v l).Pairwise (fun a b => a.2 <= b.2) := by
  induction l with
  | nil => simp [insertZ]
  | cons w rest ih =>
    rw [List.pairwise_cons] at h
    rw [insertZ]
    by_cases hc : w.2 < v.2
    · rw [if_pos hc]
      rw [List.pairwise_cons]
      refine ⟨?_, ih h.2⟩
      intro a ha
      rcases List.mem_cons.mp ((insertZ_perm v rest).mem_iff.mp ha) with h1 | h2
      · subst h1; omega
      · exact h.1 a h2
    · rw [if_neg hc]
      rw [List.pairwise_cons]
      refine ⟨?_, List.pairwise_cons.mpr h⟩
      intro a ha
      rcases List.mem_cons.mp ha with h1 | h2
      · subst h1; omega
      · exact le_trans (by omega) (h.1 a h2)

theorem sortZ_pairwise (l : List (Nat × Nat)) :
    (sortZ l).Pairwise (fun a b => a.2 <= b.2) := by
  induction l with
  | nil => exact List.Pairwise.nil
  | cons v rest ih => exact insertZ_pairwise ih

theorem sortedNat_map_snd {l : List (Nat × Nat)}
    (h : l.Pairwise (fun a b => a.2 <= b.2)) :
    SortedNat (l.map (fun v => v.2)) := by
  intro i j hij hj
  rw [List.length_map] at hj
  rcases Nat.eq_or_lt_of_le hij with he | hlt
  · rw [he]
  · have hi : i < l.length := lt_trans hlt hj
    rw [List.getD_eq_getElem _ _ (by simpa using hi),
      List.getD_eq_getElem _ _ (by simpa using hj)]
    simp only [List.getElem_map]
    exact List.pairwise_iff_getElem.mp h i j hi hj hlt

theorem mapZ_ok {xs ys : List ℚ} {l : List Nat}
    (h : ∀ i ∈ l, fitsUintN 32 (xs.getD i 0) = true ∧ fitsUintN 32 (ys.getD i 0) = true) :
    mapZ xs ys l = Except.ok (l.map (fun i =>
      (i, zencode64 (qToNat (xs.getD i 0)) (qToNat (ys.getD i 0))))) := by
  induction l with
  | nil => rfl
  | cons i rest ih =>
    obtain ⟨hx, hy⟩ := h i (List.mem_cons_self _ _)
    rw [mapZ, if_neg (by rw [hx]; decide), if_neg (by rw [hy]; decide),
      ih (fun j hj => h j (List.mem_cons_of_mem _ hj))]
    rfl

theorem mapZ_error {xs ys : List ℚ} {l : List Nat}
    (h : ∃ i ∈ l, fitsUintN 32 (xs.getD i 0) = false ∨ fitsUintN 32 (ys.getD i 0) = false) :
    mapZ xs ys l
      = Except.error "can not index point that is not an integral type in [0, 2^32-1]" := by
  induction l with
  | nil => obtain ⟨i, hi, _⟩ := h; exact absurd hi (List.not_mem_nil i)
  | cons i rest ih =>
    rw [mapZ]
    by_cases hx : fitsUintN 32 (xs.getD i 0) = false
    · rw [if_pos hx]
    · rw [if_neg hx]
      by_cases hy : fitsUintN 32 (ys.getD i 0) = false
      · rw [if_pos hy]
      · rw [if_neg hy]
        obtain ⟨j, hj, hbad⟩ := h
        rcases List.mem_cons.mp hj with h1 | h2
        · subst h1; tauto
        · rw [ih ⟨j, h2, hbad⟩]

theorem finishE_ok {b : ZBush} (hb : b.finished = false)
    (hv : ∀ i, i < b.xs.length →
      fitsUintN 32 (b.xs.getD i 0) = true ∧ fitsUintN 32 (b.ys.getD i 0) = true) :
    b.finishE
      = ({ ids := (sortZ (mappedOf b)).map (fun v => v.1),
           xs := (sortZ (mappedOf b)).map (fun v => b.xs.getD v.1 0),
           ys := (sortZ (mappedOf b)).map (fun v => b.ys.getD v.1 0),
           zs := (sortZ (mappedOf b)).map (fun v => v.2),
           finished := true }, none) := by
  rw [ZBush.finishE, if_neg (by rw [hb]; decide),
    mapZ_ok (fun i hi => hv i (List.mem_range.mp hi)), mappedOf]

theorem mem_mappedOf {b : ZBush} {v : Nat × Nat} (h : v ∈ mappedOf b) :
    v.1 < b.xs.length ∧
      v.2 = zencode64 (qToNat (b.xs.getD v.1 0)) (qToNat (b.ys.getD v.1 0)) := by
  rw [mappedOf] at h
  obtain ⟨i, hi, he⟩ := List.mem_map.mp h
  subst he
  exact ⟨List.mem_range.mp hi, rfl⟩

theorem mem_sortZ_mappedOf {b : ZBush} {v : Nat × Nat} (h : v ∈ sortZ (mappedOf b)) :
    v.1 < b.xs.length ∧
      v.2 = zencode64 (qToNat (b.xs.getD v.1 0)) (qToNat (b.ys.getD v.1 0)) :=
  mem_mappedOf ((sortZ_perm (mappedOf b)).mem_iff.mp h)

theorem length_sortZ (l : List (Nat × Nat)) : (sortZ l).length = l.length :=
  (sortZ_perm l).length_eq

theorem length_mappedOf (b : ZBush) : (mappedOf b).length = b.xs.length := by
  rw [mappedOf, List.length_map, List.length_range]

theorem sortZ_map_fst_perm (b : ZBush) :
    ((sortZ (mappedOf b)).map (fun v => v.1)).Perm (List.range b.xs.length) := by
  have h2 : (mappedOf b).map (fun v : Nat × Nat => v.1) = List.range b.xs.length := by
    rw [mappedOf, List.map_map]
    exact List.map_id _
  have h := (sortZ_perm (mappedOf b)).map (fun v : Nat × Nat => v.1)
  rw [h2] at h
  exact h

theorem scanGoQ_eq_scanGo (ids : List Nat) (xsQ ysQ : List ℚ) (xsN ysN zs : List Nat)
    (xminQ yminQ xmaxQ ymaxQ : ℚ) (xminN yminN xmaxN ymaxN zmin zmax : Nat)
    (hx : ∀ i, xsQ.getD i 0 = (xsN.getD i 0 : ℚ))
    (hy : ∀ i, ysQ.getD i 0 = (ysN.getD i 0 : ℚ))
    (hxmin : xminQ = (xminN : ℚ)) (hymin : yminQ = (yminN : ℚ))
    (hxmax : xmaxQ = (xmaxN : ℚ)) (hymax : ymaxQ = (ymaxN : ℚ)) :
    ∀ fuel it last acc,
      scanGoQ ids xsQ ysQ zs xminQ yminQ xmaxQ ymaxQ zmin zmax fuel it last acc
        = scanGo ids xsN ysN zs xminN yminN xmaxN ymaxN zmin zmax fuel it last acc := by
  intro fuel
  induction fuel with
  | zero => intro it last acc; rfl
  | succ fuel ih =>
    intro it last acc
    rw [scanGoQ, scanGo]
    by_cases he : it = last
    · rw [if_pos he, if_pos he]
    · rw [if_neg he, if_neg he]
      have hcond : (xminQ <= xsQ.getD it 0 ∧ xsQ.getD it 0 <= xmaxQ ∧
          yminQ <= ysQ.getD it 0 ∧ ysQ.getD it 0 <= ymaxQ) ↔
          (xminN <= xsN.getD it 0 ∧ xsN.getD it 0 <= xmaxN ∧
          yminN <= ysN.getD it 0 ∧ ysN.getD it 0 <= ymaxN) := by
        rw [hx, hy, hxmin, hymin, hxmax, hymax, Nat.cast_le, Nat.cast_le,
          Nat.cast_le, Nat.cast_le]
      by_cases hc : xminN <= xsN.getD it 0 ∧ xsN.getD it 0 <= xmaxN ∧
          yminN <= ysN.getD it 0 ∧ ysN.getD it 0 <= ymaxN
      · rw [if_pos (hcond.mpr hc), if_pos hc, ih]
      · rw [if_neg (fun hq => hc (hcond.mp hq)), if_neg hc, ih]

theorem foldl_add (pts : List (ℚ × ℚ)) (b : ZBush) :
    pts.foldl (fun b p => (b.add p.1 p.2).1) b
      = ⟨b.ids, b.xs ++ pts.map Prod.fst, b.ys ++ pts.map Prod.snd, b.zs,
         b.finished && decide (pts = [])⟩ := by
  induction pts generalizing b with
  | nil => cases b; simp
  | cons p rest ih =>
    rw [List.foldl_cons, ih]
    simp [ZBush.add, List.append_assoc]

theorem mkIndex_eq (pts : List (ℚ × ℚ)) :
    mkIndex pts = ⟨[], pts.map Prod.fst, pts.map Prod.snd, [], false⟩ := by
  rw [mkIndex, foldl_add]
  simp [ZBush.init]

theorem finishE_of_finished {b : ZBush} (h : b.finished = true) :
    b.finishE = (b, none) := by
  rw [ZBush.finishE, if_pos h]

theorem finishE_fst_of_err {b : ZBush} {e : String} (h : (b.finishE).2 = some e) :
    (b.finishE).1 = b := by
  rw [ZBush.finishE] at h ⊢
  by_cases hf : b.finished = true
  · rw [if_pos hf] at h
    simp at h
  · rw [if_neg hf] at h ⊢
    cases hm : mapZ b.xs b.ys (List.range b.xs.length) with
    | error e2 => rfl
    | ok m => rw [hm] at h; simp at h

theorem finishE_finished_of_none {b : ZBush} (h : (b.finishE).2 = none) :
    ((b.finishE).1).finished = true := by
  rw [ZBush.finishE] at h ⊢
  by_cases hf : b.finished = true
  · rw [if_pos hf]
    exact hf
  · rw [if_neg hf] at h ⊢
    cases hm : mapZ b.xs b.ys (List.range b.xs.length) with
    | error e2 => rw [hm] at h; simp at h
    | ok m => rfl

theorem range_eq_of_finishE_some {b B : ZBush} {e : String}
    (h : b.finishE = (B, some e)) (xmin ymin xmax ymax : ℚ) :
    b.range xmin ymin xmax ymax = (B, Except.error e) := by
  rw [ZBush.range, h]

theorem range_eq_of_finishE_none {b B : ZBush} (h : b.finishE = (B, none))
    {xmin ymin xmax ymax : ℚ}
    (hval : ¬(fitsUintN 32 xmin = false ∨ fitsUintN 32 ymin = false ∨
      fitsUintN 32 xmax = false ∨ fitsUintN 32 ymax = false)) :
    b.range xmin ymin xmax ymax
      = (B, Except.ok ((B.runScan xmin ymin xmax ymax).getD [])) := by
  rw [ZBush.range, h]
  dsimp only
  rw [if_neg hval]

theorem range_eq_of_finishE_none_invalid {b B : ZBush} (h : b.finishE = (B, none))
    {xmin ymin xmax ymax : ℚ}
    (hval : fitsUintN 32 xmin = false ∨ fitsUintN 32 ymin = false ∨
      fitsUintN 32 xmax = false ∨ fitsUintN 32 ymax = false) :
    b.range xmin ymin xmax ymax
      = (B, Except.error "can not range query with values that are not of integral type in [0, 2^32-1]") := by
  rw [ZBush.range, h]
  dsimp only
  rw [if_pos hval]

theorem sortedArrays_facts {b : ZBush}
    (hv : ∀ i, i < b.xs.length →
      fitsUintN 32 (b.xs.getD i 0) = true ∧ fitsUintN 32 (b.ys.getD i 0) = true) :
    ∀ i, i < (sortZ (mappedOf b)).length →
      ((sortZ (mappedOf b)).map (fun v => v.1)).getD i 0 < b.xs.length ∧
      ((sortZ (mappedOf b)).map (fun v => b.xs.getD v.1 0)).getD i 0
        = b.xs.getD (((sortZ (mappedOf b)).map (fun v => v.1)).getD i 0) 0 ∧
      ((sortZ (mappedOf b)).map (fun v => b.ys.getD v.1 0)).getD i 0
        = b.ys.getD (((sortZ (mappedOf b)).map (fun v => v.1)).getD i 0) 0 ∧
      fitsUintN 32 (((sortZ (mappedOf b)).map (fun v => b.xs.getD v.1 0)).getD i 0) = true ∧
      fitsUintN 32 (((sortZ (mappedOf b)).map (fun v => b.ys.getD v.1 0)).getD i 0) = true ∧
      ((sortZ (mappedOf b)).map (fun v => v.2)).getD i 0
        = zencode64
            (qToNat (((sortZ (mappedOf b)).map (fun v => b.xs.getD v.1 0)).getD i 0))
            (qToNat (((sortZ (mappedOf b)).map (fun v => b.ys.getD v.1 0)).getD i 0)) := by
  intro i hi
  have hmem : (sortZ (mappedOf b)).getD i ((0 : ℕ), (0 : ℕ)) ∈ sortZ (mappedOf b) := by
    rw [List.getD_eq_getElem _ _ hi]
    exact List.getElem_mem hi
  obtain ⟨hj, hz⟩ := mem_sortZ_mappedOf hmem
  rw [getD_map_lt (fun v : ℕ × ℕ => v.1) _ hi ((0 : ℕ), (0 : ℕ)) 0,
    getD_map_lt (fun v : ℕ × ℕ => b.xs.getD v.1 0) _ hi ((0 : ℕ), (0 : ℕ)) 0,
    getD_map_lt (fun v : ℕ × ℕ => b.ys.getD v.1 0) _ hi ((0 : ℕ), (0 : ℕ)) 0,
    getD_map_lt (fun v : ℕ × ℕ => v.2) _ hi ((0 : ℕ), (0 : ℕ)) 0]
  exact ⟨hj, rfl, rfl, (hv _ hj).1, (hv _ hj).2, hz⟩

theorem runScan_ok (B : ZBush)
    (hvx : ∀ i, i < B.xs.length → fitsUintN 32 (B.xs.getD i 0) = true)
    (hvy : ∀ i, i < B.ys.length → fitsUintN 32 (B.ys.getD i 0) = true)
    (hlx : B.zs.length <= B.xs.length) (hly : B.zs.length <= B.ys.length)
    (Hz : ∀ i, i < B.zs.length →
      B.zs.getD i 0 = zencode64 (qToNat (B.xs.getD i 0)) (qToNat (B.ys.getD i 0)))
    (Hs : SortedNat B.zs)
    {xmin ymin xmax ymax : ℚ}
    (h1 : fitsUintN 32 xmin = true) (h2 : fitsUintN 32 ymin = true)
    (h3 : fitsUintN 32 xmax = true) (h4 : fitsUintN 32 ymax = true)
    (hxx : xmin <= xmax) (hyy : ymin <= ymax) :
    B.runScan xmin ymin xmax ymax
      = some (((List.range B.zs.length).filter
          (rectFilterQ B.xs B.ys xmin ymin xmax ymax)).map
          (fun i => B.ids.getD i 0)) := by
  have hxQ : ∀ i, B.xs.getD i 0 = (((B.xs.map qToNat).getD i 0 : ℕ) : ℚ) := by
    intro i
    by_cases hi : i < B.xs.length
    · rw [getD_map_lt qToNat _ hi 0 0]
      exact (qToNat_cast (hvx i hi)).symm
    · rw [List.getD_eq_default _ _ (Nat.le_of_not_lt hi),
        List.getD_eq_default _ _ (by rw [List.length_map]; exact Nat.le_of_not_lt hi)]
      exact (Nat.cast_zero).symm
  have hyQ : ∀ i, B.ys.getD i 0 = (((B.ys.map qToNat).getD i 0 : ℕ) : ℚ) := by
    intro i
    by_cases hi : i < B.ys.length
    · rw [getD_map_lt qToNat _ hi 0 0]
      exact (qToNat_cast (hvy i hi)).symm
    · rw [List.getD_eq_default _ _ (Nat.le_of_not_lt hi),
        List.getD_eq_default _ _ (by rw [List.length_map]; exact Nat.le_of_not_lt hi)]
      exact (Nat.cast_zero).symm
  rw [ZBush.runScan,
    scanGoQ_eq_scanGo B.ids B.xs B.ys (B.xs.map qToNat) (B.ys.map qToNat) B.zs
      xmin ymin xmax ymax (qToNat xmin) (qToNat ymin) (qToNat xmax) (qToNat ymax)
      (zencode64 (qToNat xmin) (qToNat ymin)) (zencode64 (qToNat xmax) (qToNat ymax))
      hxQ hyQ (qToNat_cast h1).symm (qToNat_cast h2).symm
      (qToNat_cast h3).symm (qToNat_cast h4).symm]
  have Hz2 : ∀ i, i < B.zs.length →
      B.zs.getD i 0
        = zencode64 ((B.xs.map qToNat).getD i 0) ((B.ys.map qToNat).getD i 0) := by
    intro i hi
    rw [Hz i hi, getD_map_lt qToNat _ (lt_of_lt_of_le hi hlx) 0 0,
      getD_map_lt qToNat _ (lt_of_lt_of_le hi hly) 0 0]
  have Hc2 : ∀ i, i < B.zs.length →
      (B.xs.map qToNat).getD i 0 < 2 ^ 32 ∧ (B.ys.map qToNat).getD i 0 < 2 ^ 32 := by
    intro i hi
    rw [getD_map_lt qToNat _ (lt_of_lt_of_le hi hlx) 0 0,
      getD_map_lt qToNat _ (lt_of_lt_of_le hi hly) 0 0]
    exact ⟨qToNat_lt (hvx i (lt_of_lt_of_le hi hlx)),
      qToNat_lt (hvy i (lt_of_lt_of_le hi hly))⟩
  have hR := rangeScan_eq B.ids (B.xs.map qToNat) (B.ys.map qToNat) B.zs
    (qToNat xmin) (qToNat ymin) (qToNat xmax) (qToNat ymax) Hz2 Hc2 Hs
    (qToNat_lt h3) (qToNat_lt h4)
    (qToNat_le_qToNat h1 h3 hxx) (qToNat_le_qToNat h2 h4 hyy)
  rw [rangeScan] at hR
  rw [hR]
  congr 1
  congr 1
  refine List.filter_congr ?_
  intro i hi
  have hiz : i < B.zs.length := List.mem_range.mp hi
  have hix : i < B.xs.length := lt_of_lt_of_le hiz hlx
  have hiy : i < B.ys.length := lt_of_lt_of_le hiz hly
  rw [rectFilter, rectFilterQ, getD_map_lt qToNat _ hix 0 0, getD_map_lt qToNat _ hiy 0 0,
    decide_eq_decide.mpr (qToNat_le_iff h1 (hvx i hix)),
    decide_eq_decide.mpr (qToNat_le_iff (hvx i hix) h3),
    decide_eq_decide.mpr (qToNat_le_iff h2 (hvy i hiy)),
    decide_eq_decide.mpr (qToNat_le_iff (hvy i hiy) h4)]

theorem range_ok {b : ZBush} (hb : b.finished = false)
    (hv : ∀ i, i < b.xs.length →
      fitsUintN 32 (b.xs.getD i 0) = true ∧ fitsUintN 32 (b.ys.getD i 0) = true)
    {xmin ymin xmax ymax : ℚ}
    (h1 : fitsUintN 32 xmin = true) (h2 : fitsUintN 32 ymin = true)
    (h3 : fitsUintN 32 xmax = true) (h4 : fitsUintN 32 ymax = true)
    (hxx : xmin <= xmax) (hyy : ymin <= ymax) :
    b.range xmin ymin xmax ymax
      = ((b.finishE).1,
         Except.ok (((sortZ (mappedOf b)).map (fun v => v.1)).filter (rectFilterQ b.xs b.ys xmin ymin xmax ymax))) := by
  have hfin := finishE_ok hb hv
  have hfacts := sortedArrays_facts hv
  have hlenx : ((sortZ (mappedOf b)).map (fun v => b.xs.getD v.1 0)).length = (sortZ (mappedOf b)).length := List.length_map _ _
  have hleny : ((sortZ (mappedOf b)).map (fun v => b.ys.getD v.1 0)).length = (sortZ (mappedOf b)).length := List.length_map _ _
  have hlenz : ((sortZ (mappedOf b)).map (fun v => v.2)).length = (sortZ (mappedOf b)).length := List.length_map _ _
  have hlenids : ((sortZ (mappedOf b)).map (fun v => v.1)).length = (sortZ (mappedOf b)).length := List.length_map _ _
  have hvx : ∀ i, i < ((sortZ (mappedOf b)).map (fun v => b.xs.getD v.1 0)).length → fitsUintN 32 (((sortZ (mappedOf b)).map (fun v => b.xs.getD v.1 0)).getD i 0) = true := by
    intro i hi
    rw [hlenx] at hi
    exact (hfacts i hi).2.2.2.1
  have hvy : ∀ i, i < ((sortZ (mappedOf b)).map (fun v => b.ys.getD v.1 0)).length → fitsUintN 32 (((sortZ (mappedOf b)).map (fun v => b.ys.getD v.1 0)).getD i 0) = true := by
    intro i hi
    rw [hleny] at hi
    exact (hfacts i hi).2.2.2.2.1
  have Hz : ∀ i, i < ((sortZ (mappedOf b)).map (fun v => v.2)).length →
      ((sortZ (mappedOf b)).map (fun v => v.2)).getD i 0 = zencode64 (qToNat (((sortZ (mappedOf b)).map (fun v => b.xs.getD v.1 0)).getD i 0)) (qToNat (((sortZ (mappedOf b)).map (fun v => b.ys.getD v.1 0)).getD i 0)) := by
    intro i hi
    rw [hlenz] at hi
    exact (hfacts i hi).2.2.2.2.2
  have Hs : SortedNat ((sortZ (mappedOf b)).map (fun v => v.2)) := sortedNat_map_snd (sortZ_pairwise (mappedOf b))
  rw [range_eq_of_finishE_none hfin (by rw [h1, h2, h3, h4]; simp), hfin]
  dsimp only
  rw [runScan_ok _ hvx hvy (by rw [hlenz, hlenx]) (by rw [hlenz, hleny]) Hz Hs
    h1 h2 h3 h4 hxx hyy]
  rw [Option.getD_some]
  congr 2
  have hA : (List.range ((sortZ (mappedOf b)).map (fun v => v.2)).length).filter (rectFilterQ ((sortZ (mappedOf b)).map (fun v => b.xs.getD v.1 0)) ((sortZ (mappedOf b)).map (fun v => b.ys.getD v.1 0)) xmin ymin xmax ymax)
      = (List.range ((sortZ (mappedOf b)).map (fun v => v.2)).length).filter
          ((rectFilterQ b.xs b.ys xmin ymin xmax ymax) ∘ (fun i => ((sortZ (mappedOf b)).map (fun v => v.1)).getD i 0)) := by
    refine List.filter_congr ?_
    intro i hi
    have hi2 : i < (sortZ (mappedOf b)).length := by
      rw [← hlenz]
      exact List.mem_range.mp hi
    show rectFilterQ ((sortZ (mappedOf b)).map (fun v => b.xs.getD v.1 0)) ((sortZ (mappedOf b)).map (fun v => b.ys.getD v.1 0)) xmin ymin xmax ymax i
      = rectFilterQ b.xs b.ys xmin ymin xmax ymax (((sortZ (mappedOf b)).map (fun v => v.1)).getD i 0)
    rw [rectFilterQ, rectFilterQ, (hfacts i hi2).2.1, (hfacts i hi2).2.2.1]
  rw [hA, ← List.filter_map]
  rw [show ((sortZ (mappedOf b)).map (fun v => v.2)).length = ((sortZ (mappedOf b)).map (fun v => v.1)).length by rw [hlenz, hlenids]]
  rw [map_getD_range]

theorem range_fst_of_finished {B : ZBush} (h : B.finished = true)
    (xmin ymin xmax ymax : ℚ) : (B.range xmin ymin xmax ymax).1 = B := by
  have hf := finishE_of_finished h
  by_cases hc : fitsUintN 32 xmin = false ∨ fitsUintN 32 ymin = false ∨
      fitsUintN 32 xmax = false ∨ fitsUintN 32 ymax = false
  · rw [range_eq_of_finishE_none_invalid hf hc]
  · rw [range_eq_of_finishE_none hf hc]

/-- C1: for every sequence of points added with integer coordinates in
[0, 2^32-1] and every query rectangle with integer bounds in that domain
satisfying xmin <= xmax and ymin <= ymax, `range` returns exactly the
identifiers of the added points lying inside the closed rectangle - no
false positives, no false negatives, no duplicates. -/
theorem range_returns_exactly_in_rect (pts : List (ℚ × ℚ))
    (hpts : ∀ p ∈ pts, fitsUintN 32 p.1 = true ∧ fitsUintN 32 p.2 = true)
    {xmin ymin xmax ymax : ℚ}
    (h1 : fitsUintN 32 xmin = true) (h2 : fitsUintN 32 ymin = true)
    (h3 : fitsUintN 32 xmax = true) (h4 : fitsUintN 32 ymax = true)
    (hxx : xmin <= xmax) (hyy : ymin <= ymax) :
    ∃ r, ((mkIndex pts).range xmin ymin xmax ymax).2 = Except.ok r ∧
      r.Nodup ∧
      r.Perm ((List.range pts.length).filter (fun i =>
        decide (xmin <= (pts.getD i (0, 0)).1) && decide ((pts.getD i (0, 0)).1 <= xmax) &&
        decide (ymin <= (pts.getD i (0, 0)).2) && decide ((pts.getD i (0, 0)).2 <= ymax))) := by
  have hm := mkIndex_eq pts
  have hb : (mkIndex pts).finished = false := by rw [hm]
  have hxs : (mkIndex pts).xs = pts.map Prod.fst := by rw [hm]
  have hys : (mkIndex pts).ys = pts.map Prod.snd := by rw [hm]
  have hlen : (mkIndex pts).xs.length = pts.length := by rw [hxs, List.length_map]
  have hv : ∀ i, i < (mkIndex pts).xs.length →
      fitsUintN 32 ((mkIndex pts).xs.getD i 0) = true ∧
      fitsUintN 32 ((mkIndex pts).ys.getD i 0) = true := by
    intro i hi
    rw [hlen] at hi
    have hmem : pts.getD i (0, 0) ∈ pts := by
      rw [List.getD_eq_getElem _ _ hi]
      exact List.getElem_mem hi
    rw [hxs, hys, getD_map_lt Prod.fst _ hi (0, 0) 0, getD_map_lt Prod.snd _ hi (0, 0) 0]
    exact hpts _ hmem
  have hR := range_ok hb hv h1 h2 h3 h4 hxx hyy
  refine ⟨_, by rw [hR], ?_, ?_⟩
  · exact List.Nodup.filter _
      ((sortZ_map_fst_perm (mkIndex pts)).nodup_iff.mpr (List.nodup_range _))
  · refine (List.Perm.filter _ (sortZ_map_fst_perm (mkIndex pts))).trans ?_
    rw [hlen]
    have he : (List.range pts.length).filter
        (rectFilterQ (mkIndex pts).xs (mkIndex pts).ys xmin ymin xmax ymax)
        = (List.range pts.length).filter (fun i =>
          decide (xmin <= (pts.getD i (0, 0)).1) && decide ((pts.getD i (0, 0)).1 <= xmax) &&
          decide (ymin <= (pts.getD i (0, 0)).2) && decide ((pts.getD i (0, 0)).2 <= ymax)) := by
      refine List.filter_congr ?_
      intro i hi
      have hi2 : i < pts.length := List.mem_range.mp hi
      rw [rectFilterQ, hxs, hys, getD_map_lt Prod.fst _ hi2 (0, 0) 0,
        getD_map_lt Prod.snd _ hi2 (0, 0) 0]
    rw [he]

/-- C3: every `range` call with in-domain, ordered bounds terminates.  The
scan loop of the implicitly finished index is run on fuel `last - it`, one
unit per iteration, which a strictly advancing cursor justifies; the fuel
never runs out (the loop reaches `last` and a result comes back rather than
`none`). -/
theorem range_scan_loop_terminates {b : ZBush} (hb : b.finished = false)
    (hv : ∀ i, i < b.xs.length →
      fitsUintN 32 (b.xs.getD i 0) = true ∧ fitsUintN 32 (b.ys.getD i 0) = true)
    {xmin ymin xmax ymax : ℚ}
    (h1 : fitsUintN 32 xmin = true) (h2 : fitsUintN 32 ymin = true)
    (h3 : fitsUintN 32 xmax = true) (h4 : fitsUintN 32 ymax = true)
    (hxx : xmin <= xmax) (hyy : ymin <= ymax) :
    (((b.finishE).1).runScan xmin ymin xmax ymax).isSome = true := by
  have hfacts := sortedArrays_facts hv
  have hlenx : ((sortZ (mappedOf b)).map (fun v => b.xs.getD v.1 0)).length = (sortZ (mappedOf b)).length := List.length_map _ _
  have hleny : ((sortZ (mappedOf b)).map (fun v => b.ys.getD v.1 0)).length = (sortZ (mappedOf b)).length := List.length_map _ _
  have hlenz : ((sortZ (mappedOf b)).map (fun v => v.2)).length = (sortZ (mappedOf b)).length := List.length_map _ _
  have hvx : ∀ i, i < ((sortZ (mappedOf b)).map (fun v => b.xs.getD v.1 0)).length → fitsUintN 32 (((sortZ (mappedOf b)).map (fun v => b.xs.getD v.1 0)).getD i 0) = true := by
    intro i hi
    rw [hlenx] at hi
    exact (hfacts i hi).2.2.2.1
  have hvy : ∀ i, i < ((sortZ (mappedOf b)).map (fun v => b.ys.getD v.1 0)).length → fitsUintN 32 (((sortZ (mappedOf b)).map (fun v => b.ys.getD v.1 0)).getD i 0) = true := by
    intro i hi
    rw [hleny] at hi
    exact (hfacts i hi).2.2.2.2.1
  have Hz : ∀ i, i < ((sortZ (mappedOf b)).map (fun v => v.2)).length →
      ((sortZ (mappedOf b)).map (fun v => v.2)).getD i 0 = zencode64 (qToNat (((sortZ (mappedOf b)).map (fun v => b.xs.getD v.1 0)).getD i 0)) (qToNat (((sortZ (mappedOf b)).map (fun v => b.ys.getD v.1 0)).getD i 0)) := by
    intro i hi
    rw [hlenz] at hi
    exact (hfacts i hi).2.2.2.2.2
  have Hs : SortedNat ((sortZ (mappedOf b)).map (fun v => v.2)) := sortedNat_map_snd (sortZ_pairwise (mappedOf b))
  rw [finishE_ok hb hv]
  dsimp only
  rw [runScan_ok _ hvx hvy (by rw [hlenz, hlenx]) (by rw [hlenz, hleny]) Hz Hs
    h1 h2 h3 h4 hxx hyy]
  rfl

/-- C4 (amended): after every successful committing `finish()` (on an
unfinished index all of whose stored coordinates are integers in
[0, 2^32-1]), the four parallel arrays have equal length n, each key is the
z-encoding of its row's coordinates, keys are sorted, `ids` is a permutation
of 0..n-1, and row i holds the `ids[i]`-th entry of the coordinate arrays as
they stood when that `finish()` began (for a `finish()` with no earlier
finalize those arrays are the insertion sequence itself); every subsequent
`range()` call leaves the finished state unchanged. -/
theorem finish_establishes_invariants {b : ZBush} (hb : b.finished = false)
    (hv : ∀ i, i < b.xs.length →
      fitsUintN 32 (b.xs.getD i 0) = true ∧ fitsUintN 32 (b.ys.getD i 0) = true) :
    (b.finishE).2 = none ∧
    ((b.finishE).1).ids.length = b.xs.length ∧
    ((b.finishE).1).xs.length = b.xs.length ∧
    ((b.finishE).1).ys.length = b.xs.length ∧
    ((b.finishE).1).zs.length = b.xs.length ∧
    (∀ i, i < b.xs.length → ((b.finishE).1).zs.getD i 0
      = zencode64 (qToNat (((b.finishE).1).xs.getD i 0))
          (qToNat (((b.finishE).1).ys.getD i 0))) ∧
    (∀ i, i + 1 < b.xs.length →
      ((b.finishE).1).zs.getD i 0 <= ((b.finishE).1).zs.getD (i + 1) 0) ∧
    (((b.finishE).1).ids).Perm (List.range b.xs.length) ∧
    (∀ i, i < b.xs.length →
      ((b.finishE).1).ids.getD i 0 < b.xs.length ∧
      ((b.finishE).1).xs.getD i 0 = b.xs.getD (((b.finishE).1).ids.getD i 0) 0 ∧
      ((b.finishE).1).ys.getD i 0 = b.ys.getD (((b.finishE).1).ids.getD i 0) 0) ∧
    (∀ xmin ymin xmax ymax : ℚ,
      (((b.finishE).1).range xmin ymin xmax ymax).1 = (b.finishE).1) := by
  have hfin := finishE_ok hb hv
  have hfacts := sortedArrays_facts hv
  have hsmlen : (sortZ (mappedOf b)).length = b.xs.length := by
    rw [length_sortZ, length_mappedOf]
  have Hs : SortedNat ((sortZ (mappedOf b)).map (fun v => v.2)) :=
    sortedNat_map_snd (sortZ_pairwise (mappedOf b))
  rw [hfin]
  dsimp only
  refine ⟨rfl, ?_, ?_, ?_, ?_, ?_, ?_, ?_, ?_, ?_⟩
  · rw [List.length_map, hsmlen]
  · rw [List.length_map, hsmlen]
  · rw [List.length_map, hsmlen]
  · rw [List.length_map, hsmlen]
  · intro i hi
    exact (hfacts i (by rw [hsmlen]; exact hi)).2.2.2.2.2
  · intro i hi
    exact Hs i (i + 1) (Nat.le_succ i) (by rw [List.length_map, hsmlen]; exact hi)
  · exact sortZ_map_fst_perm b
  · intro i hi
    have hi2 : i < (sortZ (mappedOf b)).length := by
      rw [hsmlen]
      exact hi
    exact ⟨(hfacts i hi2).1, (hfacts i hi2).2.1, (hfacts i hi2).2.2.1⟩
  · intro xmin ymin xmax ymax
    exact range_fst_of_finished rfl xmin ymin xmax ymax

/-- C4 counterexample (against the original claim): after finish-add-finish,
`ids` no longer indexes the insertion sequence.  The history
`add(5,5), add(3,3), finish(), add(0,0), finish()` succeeds, yet row 1 of the
final state carries id 0 with stored coordinate x = 3, while the 0th point of
the insertion sequence [(5,5), (3,3), (0,0)] has x = 5: `finish()` permutes
the building arrays in place, so a later `finish()` assigns ids against the
permuted array, not the insertion order. -/
theorem finish_insertion_correspondence_counterexample :
    ((((((((ZBush.init.add 5 5).1).add 3 3).1).finishE).1.add 0 0).1).finishE).2 = none ∧
    (((((((((ZBush.init.add 5 5).1).add 3 3).1).finishE).1.add 0 0).1).finishE).1).ids.getD 1 0
      = 0 ∧
    (((((((((ZBush.init.add 5 5).1).add 3 3).1).finishE).1.add 0 0).1).finishE).1).xs.getD 1 0
      = 3 ∧
    ([((5 : ℚ), (5 : ℚ)), ((3 : ℚ), (3 : ℚ)), ((0 : ℚ), (0 : ℚ))].getD
        ((((((((((ZBush.init.add 5 5).1).add 3 3).1).finishE).1.add 0 0).1).finishE).1).ids.getD 1 0)
        (0, 0)).1 = 5 ∧
    (((((((((ZBush.init.add 5 5).1).add 3 3).1).finishE).1.add 0 0).1).finishE).1).xs.getD 1 0
      ≠ ([((5 : ℚ), (5 : ℚ)), ((3 : ℚ), (3 : ℚ)), ((0 : ℚ), (0 : ℚ))].getD
          ((((((((((ZBush.init.add 5 5).1).add 3 3).1).finishE).1.add 0 0).1).finishE).1).ids.getD 1 0)
          (0, 0)).1 := by
  refine ⟨by decide, by decide, by decide, by decide, by decide⟩

/-- C5 (amended): `add` never fails and just pushes the point; a failed
`finish()` leaves the index in its previous state; an invalid coordinate
raises the indexing error at `finish()` time; an out-of-domain query bound
raises the query error at `range()` time, leaving the state exactly as the
implicit finish left it (no partially mutated arrays). -/
theorem error_handling_behavior :
    (∀ (b : ZBush) (x y : ℚ),
      (b.add x y).1 = { b with xs := b.xs ++ [x], ys := b.ys ++ [y], finished := false } ∧
      (b.add x y).2 = b.xs.length) ∧
    (∀ (b : ZBush) (e : String), (b.finishE).2 = some e → (b.finishE).1 = b) ∧
    (∀ b : ZBush, b.finished = false →
      (∃ i, i < b.xs.length ∧ (fitsUintN 32 (b.xs.getD i 0) = false ∨
        fitsUintN 32 (b.ys.getD i 0) = false)) →
      (b.finishE).2
        = some "can not index point that is not an integral type in [0, 2^32-1]") ∧
    (∀ (b B : ZBush) (xmin ymin xmax ymax : ℚ), b.finishE = (B, none) →
      (fitsUintN 32 xmin = false ∨ fitsUintN 32 ymin = false ∨
        fitsUintN 32 xmax = false ∨ fitsUintN 32 ymax = false) →
      (b.range xmin ymin xmax ymax).2
        = Except.error "can not range query with values that are not of integral type in [0, 2^32-1]" ∧
      (b.range xmin ymin xmax ymax).1 = B) := by
  refine ⟨?_, ?_, ?_, ?_⟩
  · intro b x y
    exact ⟨rfl, by simp [ZBush.add]⟩
  · intro b e h
    exact finishE_fst_of_err h
  · intro b hb h
    obtain ⟨i, hi, hbadc⟩ := h
    rw [ZBush.finishE, if_neg (by rw [hb]; decide),
      mapZ_error ⟨i, List.mem_range.mpr hi, hbadc⟩]
  · intro b B xmin ymin xmax ymax hfe hbad
    rw [range_eq_of_finishE_none_invalid hfe hbad]
    exact ⟨rfl, rfl⟩

/-- C5 counterexample (against the original claim): a failed `range()` does
not always leave the index in its previous state.  On a stale index with
valid points, a `range()` call with an out-of-domain bound raises the
domain error, yet the state afterwards differs from the state before. -/
theorem failed_range_mutates_state_counterexample :
    ((mkIndex [((5 : ℚ), (7 : ℚ))]).range 4294967296 0 0 0).2
        = Except.error "can not range query with values that are not of integral type in [0, 2^32-1]" ∧
    ((mkIndex [((5 : ℚ), (7 : ℚ))]).range 4294967296 0 0 0).1
        ≠ mkIndex [((5 : ℚ), (7 : ℚ))] := by
  exact ⟨by rfl, by decide⟩

/-- C8: a second `finish()` right after a successful one is a no-op: it
returns without error and without mutating any state, so both calls yield
the same sorted arrays. -/
theorem finish_idempotent (b : ZBush) (h : (b.finishE).2 = none) :
    ((b.finishE).1).finishE = ((b.finishE).1, none) :=
  finishE_of_finished (finishE_finished_of_none h)

/-- C9: `add` after a finalize marks the index stale, returns the next
zero-based id, and a subsequent `range()` automatically re-finalizes: its
result ranges over all points stored so far, including the newly added
point, which is reported when it lies in the query rectangle. -/
theorem add_marks_stale_and_range_refinalizes
    {b : ZBush} (_hfin : b.finished = true)
    (hleny : b.ys.length = b.xs.length)
    (hv : ∀ i, i < b.xs.length →
      fitsUintN 32 (b.xs.getD i 0) = true ∧ fitsUintN 32 (b.ys.getD i 0) = true)
    {x y : ℚ} (hx : fitsUintN 32 x = true) (hy : fitsUintN 32 y = true)
    {xmin ymin xmax ymax : ℚ}
    (h1 : fitsUintN 32 xmin = true) (h2 : fitsUintN 32 ymin = true)
    (h3 : fitsUintN 32 xmax = true) (h4 : fitsUintN 32 ymax = true)
    (hxx : xmin <= xmax) (hyy : ymin <= ymax) :
    ((b.add x y).1).finished = false ∧
    (b.add x y).2 = b.xs.length ∧
    (∃ r, (((b.add x y).1).range xmin ymin xmax ymax).2 = Except.ok r ∧
      r.Perm ((List.range (b.xs.length + 1)).filter
        (rectFilterQ (b.xs ++ [x]) (b.ys ++ [y]) xmin ymin xmax ymax)) ∧
      (rectFilterQ (b.xs ++ [x]) (b.ys ++ [y]) xmin ymin xmax ymax b.xs.length = true →
        b.xs.length ∈ r)) := by
  have hb2 : ((b.add x y).1).finished = false := rfl
  have hxs2 : ((b.add x y).1).xs = b.xs ++ [x] := rfl
  have hys2 : ((b.add x y).1).ys = b.ys ++ [y] := rfl
  have hlen2 : ((b.add x y).1).xs.length = b.xs.length + 1 := by
    rw [hxs2]
    simp
  have hgx : (b.xs ++ [x]).getD b.xs.length 0 = x := by
    rw [List.getD_eq_getElem _ _ (by simp)]
    exact List.getElem_concat_length _ _ _ rfl _
  have hgy : (b.ys ++ [y]).getD b.xs.length 0 = y := by
    rw [List.getD_eq_getElem _ _ (by simp [hleny])]
    exact List.getElem_concat_length _ _ _ hleny.symm _
  have hv2 : ∀ i, i < ((b.add x y).1).xs.length →
      fitsUintN 32 (((b.add x y).1).xs.getD i 0) = true ∧
      fitsUintN 32 (((b.add x y).1).ys.getD i 0) = true := by
    intro i hi
    rw [hlen2] at hi
    rw [hxs2, hys2]
    by_cases hlt : i < b.xs.length
    · rw [List.getD_append _ _ _ _ hlt, List.getD_append _ _ _ _ (by rw [hleny]; exact hlt)]
      exact hv i hlt
    · have hie : i = b.xs.length := by omega
      subst hie
      rw [hgx, hgy]
      exact ⟨hx, hy⟩
  have hR := range_ok hb2 hv2 h1 h2 h3 h4 hxx hyy
  rw [hxs2, hys2] at hR
  have hperm := List.Perm.filter (rectFilterQ (b.xs ++ [x]) (b.ys ++ [y]) xmin ymin xmax ymax)
    (sortZ_map_fst_perm (b.add x y).1)
  rw [hlen2] at hperm
  refine ⟨rfl, by simp [ZBush.add], _, by rw [hR], hperm, ?_⟩
  intro hQ
  exact hperm.mem_iff.mpr (List.mem_filter.mpr ⟨List.mem_range.mpr (by omega), hQ⟩)

/-- C10: on a stale index whose points all have integer coordinates in
[0, 2^32-1], a `range()` call with an out-of-domain bound raises the
domain-violation error but does not leave the index unchanged: the implicit
`finish()` commits the sorted arrays before the bounds are validated, so
afterwards the index is finalized and not stale. -/
theorem range_invalid_bound_commits_finish {b : ZBush} (hb : b.finished = false)
    (hv : ∀ i, i < b.xs.length →
      fitsUintN 32 (b.xs.getD i 0) = true ∧ fitsUintN 32 (b.ys.getD i 0) = true)
    {xmin ymin xmax ymax : ℚ}
    (hbad : fitsUintN 32 xmin = false ∨ fitsUintN 32 ymin = false ∨
      fitsUintN 32 xmax = false ∨ fitsUintN 32 ymax = false) :
    (b.range xmin ymin xmax ymax).2
        = Except.error "can not range query with values that are not of integral type in [0, 2^32-1]" ∧
    (b.range xmin ymin xmax ymax).1 = (b.finishE).1 ∧
    ((b.range xmin ymin xmax ymax).1).finished = true ∧
    (b.range xmin ymin xmax ymax).1 ≠ b := by
  have hfin := finishE_ok hb hv
  rw [range_eq_of_finishE_none_invalid hfin hbad, hfin]
  refine ⟨rfl, rfl, rfl, ?_⟩
  intro he
  have hf := congrArg ZBush.finished he
  rw [hb] at hf
  simp at hf

theorem range_returns_exactly_in_rect_witness :
    (∀ p ∈ [((0 : ℚ), (0 : ℚ)), ((3 : ℚ), (1 : ℚ)), ((1 : ℚ), (2 : ℚ))],
        fitsUintN 32 p.1 = true ∧ fitsUintN 32 p.2 = true) ∧
    fitsUintN 32 (0 : ℚ) = true ∧ fitsUintN 32 (2 : ℚ) = true ∧ (0 : ℚ) <= (2 : ℚ) ∧
    (∃ r, ((mkIndex [((0 : ℚ), (0 : ℚ)), ((3 : ℚ), (1 : ℚ)), ((1 : ℚ), (2 : ℚ))]).range 0 0 2 2).2 = Except.ok r ∧ r.Perm [0, 2]) := by
  refine ⟨by decide, by decide, by decide, by decide, ?_⟩
  obtain ⟨r, hok, hnd, hperm⟩ := @range_returns_exactly_in_rect
    [((0 : ℚ), (0 : ℚ)), ((3 : ℚ), (1 : ℚ)), ((1 : ℚ), (2 : ℚ))] (by decide) 0 0 2 2
    (by decide) (by decide) (by decide) (by decide) (by decide) (by decide)
  refine ⟨r, hok, hperm.trans ?_⟩
  decide

theorem range_scan_loop_terminates_witness :
    (mkIndex [((1 : ℚ), (1 : ℚ))]).finished = false ∧
    ((((mkIndex [((1 : ℚ), (1 : ℚ))]).finishE).1).runScan 0 0 3 3).isSome = true :=
  ⟨by decide, @range_scan_loop_terminates (mkIndex [((1 : ℚ), (1 : ℚ))]) (by decide)
    (by decide) 0 0 3 3 (by decide) (by decide) (by decide) (by decide) (by decide)
    (by decide)⟩

theorem finish_establishes_invariants_witness :
    (mkIndex [((2 : ℚ), (1 : ℚ)), ((0 : ℚ), (3 : ℚ))]).finished = false ∧
    ((mkIndex [((2 : ℚ), (1 : ℚ)), ((0 : ℚ), (3 : ℚ))]).finishE).2 = none ∧
    ((((mkIndex [((2 : ℚ), (1 : ℚ)), ((0 : ℚ), (3 : ℚ))]).finishE).1).ids).Perm
      (List.range 2) :=
  ⟨by decide,
    (@finish_establishes_invariants (mkIndex [((2 : ℚ), (1 : ℚ)), ((0 : ℚ), (3 : ℚ))])
      (by decide) (by decide)).1,
    (@finish_establishes_invariants (mkIndex [((2 : ℚ), (1 : ℚ)), ((0 : ℚ), (3 : ℚ))])
      (by decide) (by decide)).2.2.2.2.2.2.2.1⟩

theorem finish_idempotent_witness :
    ((mkIndex [((1 : ℚ), (2 : ℚ))]).finishE).2 = none ∧
    (((mkIndex [((1 : ℚ), (2 : ℚ))]).finishE).1).finishE
      = (((mkIndex [((1 : ℚ), (2 : ℚ))]).finishE).1, none) :=
  ⟨by decide, finish_idempotent (mkIndex [((1 : ℚ), (2 : ℚ))]) (by decide)⟩

theorem add_marks_stale_and_range_refinalizes_witness :
    (((mkIndex [((0 : ℚ), (0 : ℚ))]).finishE).1).finished = true ∧
    (((((mkIndex [((0 : ℚ), (0 : ℚ))]).finishE).1).add 5 5).1).finished = false ∧
    ((((mkIndex [((0 : ℚ), (0 : ℚ))]).finishE).1).add 5 5).2 = (((mkIndex [((0 : ℚ), (0 : ℚ))]).finishE).1).xs.length ∧
    (∃ r, ((((((mkIndex [((0 : ℚ), (0 : ℚ))]).finishE).1).add 5 5).1).range 0 0 9 9).2 = Except.ok r ∧
      r.Perm ((List.range ((((mkIndex [((0 : ℚ), (0 : ℚ))]).finishE).1).xs.length + 1)).filter
        (rectFilterQ ((((mkIndex [((0 : ℚ), (0 : ℚ))]).finishE).1).xs ++ [5]) ((((mkIndex [((0 : ℚ), (0 : ℚ))]).finishE).1).ys ++ [5]) 0 0 9 9)) ∧
      (rectFilterQ ((((mkIndex [((0 : ℚ), (0 : ℚ))]).finishE).1).xs ++ [5]) ((((mkIndex [((0 : ℚ), (0 : ℚ))]).finishE).1).ys ++ [5]) 0 0 9 9 (((mkIndex [((0 : ℚ), (0 : ℚ))]).finishE).1).xs.length = true →
        (((mkIndex [((0 : ℚ), (0 : ℚ))]).finishE).1).xs.length ∈ r)) :=
  ⟨by decide, @add_marks_stale_and_range_refinalizes (((mkIndex [((0 : ℚ), (0 : ℚ))]).finishE).1) (by decide) (by decide)
    (by decide) 5 5 (by decide) (by decide) 0 0 9 9 (by decide) (by decide) (by decide)
    (by decide) (by decide) (by decide)⟩

theorem range_invalid_bound_commits_finish_witness :
    (mkIndex [((1 : ℚ), (2 : ℚ))]).finished = false ∧
    (fitsUintN 32 (4294967296 : ℚ) = false ∨ fitsUintN 32 (0 : ℚ) = false ∨
      fitsUintN 32 (0 : ℚ) = false ∨ fitsUintN 32 (0 : ℚ) = false) ∧
    ((mkIndex [((1 : ℚ), (2 : ℚ))]).range 4294967296 0 0 0).2
      = Except.error "can not range query with values that are not of integral type in [0, 2^32-1]" ∧
    ((mkIndex [((1 : ℚ), (2 : ℚ))]).range 4294967296 0 0 0).1
      = ((mkIndex [((1 : ℚ), (2 : ℚ))]).finishE).1 ∧
    (((mkIndex [((1 : ℚ), (2 : ℚ))]).range 4294967296 0 0 0).1).finished = true ∧
    ((mkIndex [((1 : ℚ), (2 : ℚ))]).range 4294967296 0 0 0).1 ≠ mkIndex [((1 : ℚ), (2 : ℚ))] :=
  ⟨by decide, by decide,
    @range_invalid_bound_commits_finish (mkIndex [((1 : ℚ), (2 : ℚ))]) (by decide)
      (by decide) 4294967296 0 0 0 (by decide)⟩

end ZB
